import Mathlib

/-!
Verification of the terraformer HCL-rendering pipeline.

This file shallowly embeds the `terraformutils` package (the files
`hcl.go` and `resource.go`) of the terraformer repository.

Modelling conventions:
* Go strings are lists of characters (`Str`); Go compares strings
  byte-lexicographically, which on UTF-8 agrees with code-point order.
* Go maps that are serialized are association lists (`GoObj`); Go maps
  used only as sets with membership tests (`mapsObjects`) are
  characteristic functions `Str → Bool`.
* Go `interface{}` values decoded from JSON/flatmap data are `GoValue`.
  JSON numbers are modelled as integers (the claims under study involve
  no fractional numerics).
* A Go `panic` (out-of-range index) is modelled by an `Option` result
  being `none`.
* Recursion that Go performs by following schema pointers is realised
  with an explicit fuel argument (`cleanFuel`), driven by the schema
  depth, so that every definition evaluates by kernel reduction; a
  fuel-irrelevance lemma shows the fuel choice is immaterial.
-/

namespace TFV

/-! ### String model -/

/-- Go strings, modelled as lists of characters. -/
abbrev Str := List Char

/-- Shorthand turning a Lean string literal into the `Str` model. -/
def str (s : String) : Str := s.data

/-- Whether `pat` is a prefix of `s` (Go `strings.HasPrefix(s, pat)`). -/
def hasPfx : Str → Str → Bool
  | [], _ => true
  | _ :: _, [] => false
  | p :: ps, c :: cs => p == c && hasPfx ps cs

/-- Suffix of `s` strictly after the first occurrence of `pat`, if any. -/
def afterFirst (pat : Str) : Str → Option Str
  | [] => if pat.isEmpty then some [] else none
  | c :: rest =>
    if hasPfx pat (c :: rest) then some ((c :: rest).drop pat.length)
    else afterFirst pat rest

/-- Whether `pat` occurs as a substring of `s` (Go `strings.Contains`). -/
def hasSub (pat s : Str) : Bool := (afterFirst pat s).isSome

/-- Prefix of `s` before the first occurrence of `pat`; all of `s` when
`pat` does not occur (Go `strings.Split(s, pat)[0]`). -/
def beforeFirst (pat : Str) : Str → Str
  | [] => []
  | c :: rest => if hasPfx pat (c :: rest) then [] else c :: beforeFirst pat rest

/-- Fuelled worker for `replAll`; the fuel is at least the length of the
remaining text, so the shortcut arm is never reached from `replAll`. -/
def replAllF (pat rep : Str) : Nat → Str → Str
  | _, [] => []
  | 0, s => s
  | fuel + 1, c :: rest =>
    if 0 < pat.length ∧ hasPfx pat (c :: rest) = true then
      rep ++ replAllF pat rep fuel ((c :: rest).drop pat.length)
    else
      c :: replAllF pat rep fuel rest

/-- Go `strings.ReplaceAll(s, pat, rep)`: left-to-right, non-overlapping,
scanning resumes after each replacement. -/
def replAll (pat rep s : Str) : Str := replAllF pat rep s.length s

/-- Go `strings.Split(s, sep)` for a one-character separator. -/
def splitOnC (sep : Char) : Str → List Str
  | [] => [[]]
  | c :: rest =>
    match splitOnC sep rest with
    | [] => [[c]]
    | h :: t => if c == sep then [] :: h :: t else (c :: h) :: t

/-- Go `strings.Join(parts, sep)` for a one-character separator. -/
def joinC (sep : Char) : List Str → Str
  | [] => []
  | [s] => s
  | s :: t :: rest => s ++ sep :: joinC sep (t :: rest)

/-- Join a list of path segments with dots (Go `strings.Join(l, ".")`). -/
def joinDot (l : List Str) : Str := joinC '.' l

/-- Go `strings.Trim(s, " ")`: strip spaces from both ends. -/
def trimChar (ch : Char) (s : Str) : Str :=
  ((s.dropWhile (fun c => c == ch)).reverse.dropWhile (fun c => c == ch)).reverse

/-- Characters Go `strings.TrimSpace` removes (the line inputs hold no
exotic Unicode whitespace). -/
def isCutChar (c : Char) : Bool :=
  c == ' ' || c == '\t' || c == '\n' || c == '\r' || c == '\x0b' || c == '\x0c'

/-- Go `strings.TrimSpace`. -/
def trimSpace (s : Str) : Str :=
  ((s.dropWhile isCutChar).reverse.dropWhile isCutChar).reverse

/-- Character class of the regexp escape form of blank space, RE2 `[\t\n\f\r ]`. -/
def isSpaceRe (c : Char) : Bool :=
  c == ' ' || c == '\t' || c == '\n' || c == '\x0c' || c == '\r'

/-- Character class of the regexp word escape, RE2 `[0-9A-Za-z_]`. -/
def isWordChar (c : Char) : Bool := c.isAlphanum || c == '_'

/-- Digit character class `[0-9]`. -/
def isDigitC (c : Char) : Bool := c.isDigit

/-- The `safeChars` constant of hcl.go:
`abcdefghijklmnopqrstuvwxyzABCDEFGHIJKLMNOPQRSTUVWXYZ0123456789-_`. -/
def isSafeChar (c : Char) : Bool := c.isAlphanum || c == '-' || c == '_'

/-- Byte-lexicographic strict order on Go strings (UTF-8 byte order agrees
with code-point order). -/
def strLtB : Str → Str → Bool
  | [], [] => false
  | [], _ :: _ => true
  | _ :: _, [] => false
  | a :: as, b :: bs =>
    if a.toNat < b.toNat then true
    else if b.toNat < a.toNat then false
    else strLtB as bs

/-- Non-strict byte-lexicographic order. -/
def strLeB (a b : Str) : Bool := !strLtB b a

/-- Insert into a list sorted by the boolean relation `le`. -/
def insertBy (le : α → α → Bool) (a : α) : List α → List α
  | [] => [a]
  | b :: rest => if le a b then a :: b :: rest else b :: insertBy le a rest

/-- Insertion sort by the boolean relation `le`. -/
def insSortBy (le : α → α → Bool) : List α → List α
  | [] => []
  | a :: rest => insertBy le a (insSortBy le rest)

/-- Decimal digits of a natural number. -/
def natToStr (n : Nat) : Str := Nat.toDigits 10 n

/-- Decimal rendering of an integer. -/
def intToStr (i : Int) : Str :=
  if i < 0 then '-' :: natToStr i.natAbs else natToStr i.natAbs

/-- Success condition of Go `strconv.Atoi`: an optional sign, then at
least one digit (integer range is not modelled; path indices are small). -/
def isGoInt (s : Str) : Bool :=
  match s with
  | [] => false
  | '-' :: rest => !rest.isEmpty && rest.all isDigitC
  | '+' :: rest => !rest.isEmpty && rest.all isDigitC
  | _ => s.all isDigitC

/-! ### Dynamic Go values (`interface{}` trees decoded from JSON / flatmap)

`GoValue.varr`/`GoValue.vobj` model non-nil Go slices/maps; the untyped
nil interface is `GoValue.vnull`. This distinction matters because
`reflect.DeepEqual` treats a non-nil empty slice or map as different
from the nil zero value of its type. -/

mutual
inductive GoValue where
  | vnull : GoValue
  | vbool : Bool → GoValue
  | vnum : Int → GoValue
  | vstr : Str → GoValue
  | varr : GoList → GoValue
  | vobj : GoObj → GoValue
inductive GoList where
  | nil : GoList
  | cons : GoValue → GoList → GoList
inductive GoObj where
  | nil : GoObj
  | cons : Str → GoValue → GoObj → GoObj
end

deriving instance DecidableEq for GoValue, GoList, GoObj

/-- Map lookup (Go `m[k]` with comma-ok). -/
def GoObj.lookup : GoObj → Str → Option GoValue
  | .nil, _ => none
  | .cons k v rest, key => if k = key then some v else rest.lookup key

/-- The keys of a map, in representation order. -/
def GoObj.keys : GoObj → List Str
  | .nil => []
  | .cons k _ rest => k :: rest.keys

/-- Go `delete(m, k)` (removes every occurrence; a Go map holds each key
at most once). -/
def GoObj.eraseKey : GoObj → Str → GoObj
  | .nil, _ => .nil
  | .cons k v rest, key =>
    if k = key then rest.eraseKey key else .cons k v (rest.eraseKey key)

/-- Whether a key is present in the map. -/
def GoObj.memKey : GoObj → Str → Bool
  | .nil, _ => false
  | .cons k _ rest, key => if k = key then true else rest.memKey key

/-- Well-formedness of the association-list representation of a Go map:
no key occurs twice. -/
def GoObj.nodupKeys : GoObj → Bool
  | .nil => true
  | .cons k _ rest => !(rest.memKey k) && rest.nodupKeys

/-- Build a `GoObj` from a Lean association list. -/
def GoObj.ofL : List (Str × GoValue) → GoObj
  | [] => .nil
  | (k, v) :: rest => .cons k v (GoObj.ofL rest)

/-- Build a `GoList` from a Lean list. -/
def GoList.ofL : List GoValue → GoList
  | [] => .nil
  | v :: rest => .cons v (GoList.ofL rest)

/-! ### Schema model (`configschema.Block`)

A `Block` carries attribute schemas (`Optional`/`Computed` flags, the
only fields resource.go reads) and nested block types. `NestedBlock` in
terraform carries a nesting mode that resource.go never consults, so a
nested block type is modelled by its inner `Block` directly. -/

/-- The two flags of `configschema.Attribute` read by resource.go. -/
structure AttrSchema where
  optional : Bool
  computed : Bool
deriving DecidableEq

mutual
inductive Block where
  | mk : List (Str × AttrSchema) → BTMap → Block
inductive BTMap where
  | nil : BTMap
  | cons : Str → Block → BTMap → BTMap
end

deriving instance DecidableEq for Block, BTMap

/-- The `Attributes` field of a block schema. -/
def Block.attrs : Block → List (Str × AttrSchema)
  | .mk a _ => a

/-- The `BlockTypes` field of a block schema. -/
def Block.bts : Block → BTMap
  | .mk _ b => b

/-- Lookup in the attribute schema table (Go `blockSchema.Attributes[key]`). -/
def aLookup : List (Str × AttrSchema) → Str → Option AttrSchema
  | [], _ => none
  | (k, a) :: rest, key => if k = key then some a else aLookup rest key

/-- Lookup in the nested-block table (Go `blockSchema.BlockTypes[key]`). -/
def btLookup : BTMap → Str → Option Block
  | .nil, _ => none
  | .cons k b rest, key => if k = key then some b else btLookup rest key

mutual
/-- Nesting depth of a schema; drives the fuel of the cleanup recursion. -/
def Block.depth : Block → Nat
  | .mk _ m => m.depth + 1
/-- Nesting depth of a nested-block table. -/
def BTMap.depth : BTMap → Nat
  | .nil => 0
  | .cons _ b r => max b.depth r.depth
end

/-! ### resource.go: pruning of optional empty attributes -/

/-- Zero-value test of `cleanOptionalEmptyAttributes`:
`value == nil || reflect.DeepEqual(value, reflect.Zero(reflect.TypeOf(value)).Interface())`.
For a non-nil slice or map the zero of its type is the nil slice/map, and
`reflect.DeepEqual` distinguishes nil from non-nil collections, so
`varr`/`vobj` values are never zero. -/
def GoValue.isZero : GoValue → Bool
  | .vnull => true
  | .vstr s => s.isEmpty
  | .vbool b => !b
  | .vnum n => n == 0
  | .varr _ => false
  | .vobj _ => false

/-- The deletion condition of the loop body of `cleanOptionalEmptyAttributes`:
the key has an attribute schema marked Optional and the value is zero. -/
def isOptZero (b : Block) (k : Str) (v : GoValue) : Bool :=
  match aLookup b.attrs k with
  | some a => a.optional && v.isZero
  | none => false

/-- One nesting step of the cleanup recursion over the items of a nested
block-type list; `recurse` is the cleanup applied to each map item. -/
def cleanItemsStep (recurse : GoObj → Block → GoObj) : GoList → Block → GoList
  | .nil, _ => .nil
  | .cons it rest, sub =>
    .cons (match it with
           | .vobj m => .vobj (recurse m sub)
           | _ => it)
      (cleanItemsStep recurse rest sub)

/-- Transformation of a retained value: when the key names a nested block
type and the value is a slice, cleanup recurses into each map element
(`if list, ok := value.([]interface{}) … cleanOptionalEmptyAttributes(itemMap, …)`). -/
def cleanValStep (recurse : GoObj → Block → GoObj) (b : Block) (k : Str) (v : GoValue) : GoValue :=
  match btLookup b.bts k with
  | none => v
  | some sub =>
    match v with
    | .varr items => .varr (cleanItemsStep recurse items sub)
    | _ => v

/-- One level of the loop of `cleanOptionalEmptyAttributes`: delete
optional zero-valued attributes, recurse (through `recurse`) into nested
block types of retained entries. -/
def cleanStep (recurse : GoObj → Block → GoObj) : GoObj → Block → GoObj
  | .nil, _ => .nil
  | .cons k v rest, b =>
    if isOptZero b k v then cleanStep recurse rest b
    else .cons k (cleanValStep recurse b k v) (cleanStep recurse rest b)

/-- Fuelled cleanup; called with fuel at least the schema depth, so the
out-of-fuel arm is never reached (`cleanFuel_fuel_irrel`). -/
def cleanFuel : Nat → GoObj → Block → GoObj
  | 0, data, _ => data
  | fuel + 1, data, b => cleanStep (cleanFuel fuel) data b

/-- Go `cleanOptionalEmptyAttributes(data, blockSchema)` of resource.go:
recursively deletes schema-optional attributes with zero values. The Go
function mutates `data` in place; the model returns the new map. -/
def cleanOptionalEmptyAttributes (data : GoObj) (b : Block) : GoObj :=
  cleanFuel b.depth data b

/-- The canonical value transformation performed on a retained entry, with
the recursion tied back to `cleanOptionalEmptyAttributes` itself. -/
def cleanBlockVal (b : Block) (k : Str) (v : GoValue) : GoValue :=
  cleanValStep cleanOptionalEmptyAttributes b k v

/-- Go `(r *Resource) CleanUpOptionalEmptyAttributes(resourceSchema)`:
first unconditionally deletes a top-level `project` attribute when its
schema marks it Computed, then runs the recursive cleanup. (The nil
guards on `r.Item`/schema only exclude absent maps and are immaterial
here: deleting from an empty map is the identity.) -/
def CleanUpOptionalEmptyAttributes (item : GoObj) (sch : Block) : GoObj :=
  let item1 :=
    match aLookup sch.attrs (str "project") with
    | some a => if a.computed then item.eraseKey (str "project") else item
    | none => item
  cleanOptionalEmptyAttributes item1 sch

/-! ### resource.go: ConvertTFstate (decode stage modelled from the spec) -/

/-- Whether the key matches one of the configured regex patterns; the
patterns used by the providers are plain literals, so matching is
modelled as substring containment. -/
def matchesAnyPat (pats : List Str) (k : Str) : Bool := pats.any (fun p => hasSub p k)

/-- Modelled from the spec: the flatmap decoder (`NewFlatmapParser(...).Parse`,
whose source is not part of the corpus — only its caller `ConvertTFstate`
is) builds `r.Item` from the flat attribute bag; keys matching an
IgnoreKeys pattern are stripped pre-decode, and zero-valued attributes
are dropped unless the key matches an AllowEmptyValues pattern
("regex patterns exempt from pruning"). Only this filtering aspect is
modelled (flat, scalar values; no nesting reconstruction). -/
def flatmapParseModel (attributes : List (Str × Str)) (ignoreKeys allowEmpty : List Str) :
    GoObj :=
  GoObj.ofL ((attributes.filter (fun kv =>
    !matchesAnyPat ignoreKeys kv.1 && (!kv.2.isEmpty || matchesAnyPat allowEmpty kv.1))).map
      (fun kv => (kv.1, GoValue.vstr kv.2)))

/-- Go `(r *Resource) ConvertTFstate`: parse the flat attribute bag into
`r.Item` (the decode stage, modelled above), then run
`CleanUpOptionalEmptyAttributes` on the result. -/
def ConvertTFstate (attributes : List (Str × Str)) (ignoreKeys allowEmpty : List Str)
    (sch : Block) : GoObj :=
  CleanUpOptionalEmptyAttributes (flatmapParseModel attributes ignoreKeys allowEmpty) sch

/-- Whether the schema declares a top-level Computed `project` attribute
(the condition of the unconditional deletion in
`CleanUpOptionalEmptyAttributes`). -/
def projComputed (sch : Block) : Bool :=
  ((aLookup sch.attrs (str "project")).map (fun a => a.computed)).getD false

/-! ### Concrete instances used by witnesses and counterexamples -/

/-- Schema with two optional attributes, used by the C3 instances. -/
def c3Schema : Block :=
  .mk [(str "tags", ⟨true, false⟩), (str "description", ⟨true, false⟩)] .nil

/-- A resource item holding an optional attribute whose value is an empty
(non-nil) sequence. -/
def c3Data : GoObj := .cons (str "tags") (.varr .nil) .nil

/-- A resource item holding an optional attribute with the empty string. -/
def c3DataB : GoObj := .cons (str "description") (.vstr []) .nil

/-- Schema for the C5 instances: computed top-level `project`, and a
nested block type `settings` whose own `project` attribute is neither
optional nor computed. -/
def c5Sub : Block := .mk [(str "project", ⟨false, false⟩)] .nil

/-- Top-level schema of the C5 instance. -/
def c5Sch : Block :=
  .mk [(str "project", ⟨false, true⟩), (str "name", ⟨false, false⟩)]
    (.cons (str "settings") c5Sub .nil)

/-- Item of the C5 instance: explicit top-level `project`, plus a nested
`settings` block carrying its own `project`. -/
def c5Nested : GoObj := .cons (str "project") (.vstr (str "q")) .nil

/-- Top-level item of the C5 instance. -/
def c5Item : GoObj :=
  .cons (str "project") (.vstr (str "my-proj"))
    (.cons (str "settings") (.varr (.cons (.vobj c5Nested) .nil)) .nil)

/-- Flat attribute bag of the C8 instance: two empty-valued attributes,
both matched by AllowEmptyValues patterns. -/
def c8Attrs : List (Str × Str) :=
  [(str "description", []), (str "zone", []), (str "name", str "n")]

/-- AllowEmptyValues patterns of the C8 instance. -/
def c8Allow : List Str := [str "description", str "zone"]

/-- Schema of the C8 instance: `description` is optional, `zone` is not. -/
def c8Sch : Block :=
  .mk [(str "description", ⟨true, false⟩), (str "zone", ⟨false, false⟩),
       (str "name", ⟨false, false⟩)] .nil

/-! ### hcl.go: the terraform 0.12 and terraform 0.13 line rewriters -/

/-- Whether a line matches the anchored regexp of the singleton-block fix
in `terraform12Adjustments`: blanks, then at least one word character,
then the equals-brace text (the word run is maximal, and a word
character cannot match the following space, so no backtracking arises). -/
def matchSingletonOpen (line : Str) : Bool :=
  let rest := line.dropWhile isSpaceRe
  let w := rest.takeWhile isWordChar
  !w.isEmpty && hasPfx (str " = \x7b") (rest.drop w.length)

/-- Whether a line matches the closing regexp of both rewriters: blanks,
then a closing brace. -/
def matchEndBrace (line : Str) : Bool :=
  hasPfx (str "\x7d") (line.dropWhile isSpaceRe)

/-- The key of a singleton opener line:
`strings.Trim(strings.Split(line, " = \x7b")[0], " ")`. -/
def keyOfOpenLine (line : Str) : Str :=
  trimChar ' ' (beforeFirst (str " = \x7b") line)

/-- Rewrite of a singleton opener line:
`strings.ReplaceAll(line, " = \x7b", " \x7b")`. -/
def rewriteOpenLine (line : Str) : Str :=
  replAll (str " = \x7b") (str " \x7b") line

/-- One iteration of the terraform12 loop: the emitted line and the new
prefix stack. The closing-brace pop is tried first (only with a nonempty
stack), then non-matching lines pass through, then the key is pushed and
the accumulated dotted path decides between keeping the map literal and
rewriting to a block opener. -/
def t12step (maps : Str → Bool) (st : List Str) (line : Str) : Str × List Str :=
  if matchEndBrace line && !st.isEmpty then (line, st.dropLast)
  else if !matchSingletonOpen line then (line, st)
  else
    let st2 := st ++ [keyOfOpenLine line]
    if maps (joinDot st2) then (line, st2)
    else (rewriteOpenLine line, st2)

/-- The line loop of Go `terraform12Adjustments`. -/
def t12go (maps : Str → Bool) (st : List Str) : List Str → List Str
  | [] => []
  | line :: rest => (t12step maps st line).1 :: t12go maps (t12step maps st line).2 rest

/-- The prefix stack after the terraform12 loop has processed `ls`. -/
def t12stack (maps : Str → Bool) (st : List Str) : List Str → List Str
  | [] => st
  | line :: rest => t12stack maps (t12step maps st line).2 rest

/-- Go `terraform12Adjustments(formatted, mapsObjects)`: rewrite
`<key> = \x7b` lines to `<key> \x7b` unless the dotted path accumulated on
the prefix stack is registered in `mapsObjects`. -/
def terraform12Adjustments (maps : Str → Bool) (s : Str) : Str :=
  joinC '\n' (t12go maps [] (splitOnC '\n' s))

/-- Whether a line matches the unanchored regexp
`required_providers ".*" \x7b` of `terraform13Adjustments`: an occurrence
of the quoted-opener text followed, somewhere later, by the quote-brace
text (a dot does not match a newline, and split lines hold none). -/
def matchReqProv (line : Str) : Bool :=
  match afterFirst (str "required_providers \"") line with
  | none => false
  | some rest => hasSub (str "\" \x7b") rest

/-- The inner scan of `terraform13Adjustments`: collect tab-prefixed
copies of the lines until one matches the closing regexp, returning the
collected block and the suffix starting at the closing line. `none` when
no line closes the block: the Go loop then evaluates `lines[inner]` past
the end of the slice and panics with an index-out-of-range error. -/
def t13scan : List Str → Option (List Str × List Str)
  | [] => none
  | l :: rest =>
    if matchEndBrace l then some ([], l :: rest)
    else
      match t13scan rest with
      | none => none
      | some (inn, rem) => some (('\t' :: l) :: inn, rem)

/-- The loop of Go `terraform13Adjustments`: at the first matching
`required_providers "<name>" \x7b` line the block is rewritten into the
map-of-maps shape and the loop breaks (later lines pass through
unprocessed). When the inner block is empty, the Go code overwrites the
closing line at index `i+1` with the new inner line and then appends
`lines[inner:]`, which still aliases that slot, so the new line appears
twice and the closing line is lost; the model reproduces this. `none`
models the out-of-range panic when no closing line exists. -/
def t13go : List Str → Option (List Str)
  | [] => some []
  | l :: rest =>
    if matchReqProv l then
      match (splitOnC ' ' (trimSpace l))[1]? with
      | none => none
      | some p1 =>
        let provider := replAll (str "\"") [] p1
        match t13scan rest with
        | none => none
        | some (inn, rem) =>
          let newLine :=
            str "\t\t" ++ provider ++ str " = \x7b\n" ++ joinC '\n' inn ++ str "\n\t\t\x7d"
          let tail := if inn.isEmpty then newLine :: rem.drop 1 else rem
          some (str "\trequired_providers \x7b" :: newLine :: tail)
    else
      match t13go rest with
      | none => none
      | some out => some (l :: out)

/-- Go `terraform13Adjustments(formatted)`. -/
def terraform13Adjustments (s : Str) : Option Str :=
  (t13go (splitOnC '\n' s)).map (joinC '\n')

/-! ### hcl.go: TfSanitize -/

/-- Concatenating map (avoids a dependence on library naming). -/
def concatMap (f : α → List β) : List α → List β
  | [] => []
  | a :: rest => f a ++ concatMap f rest

/-- The UTF-8 encoding of a code point, as byte values. -/
def utf8Bytes (n : Nat) : List Nat :=
  if n < 0x80 then [n]
  else if n < 0x800 then
    [0xC0 + n / 0x40, 0x80 + n % 0x40]
  else if n < 0x10000 then
    [0xE0 + n / 0x1000, 0x80 + (n / 0x40) % 0x40, 0x80 + n % 0x40]
  else
    [0xF0 + n / 0x40000, 0x80 + (n / 0x1000) % 0x40, 0x80 + (n / 0x40) % 0x40,
     0x80 + n % 0x40]

/-- Upper-case hexadecimal digit. -/
def hexDigitU : Nat → Char
  | 0 => '0' | 1 => '1' | 2 => '2' | 3 => '3' | 4 => '4' | 5 => '5'
  | 6 => '6' | 7 => '7' | 8 => '8' | 9 => '9' | 10 => 'A' | 11 => 'B'
  | 12 => 'C' | 13 => 'D' | 14 => 'E' | _ => 'F'

/-- Go `fmt.Sprintf("%04X", s)` for a string `s`: the upper-case hex bytes
of its UTF-8 encoding, zero-padded on the left to width four. -/
def hex04X (bytes : List Nat) : Str :=
  let digits := concatMap (fun b => [hexDigitU (b / 16), hexDigitU (b % 16)]) bytes
  List.replicate (4 - digits.length) '0' ++ digits

/-- Go `escapeRune(s)`: `fmt.Sprintf("-%04X-", s)` applied to the matched
one-rune string. -/
def escapeRune (c : Char) : Str :=
  '-' :: (hex04X (utf8Bytes c.toNat) ++ ['-'])

/-- Go `TfSanitize(name)`: every rune outside `[0-9A-Za-z_-]`
(`unsafeChars`) is replaced by its hex escape, then the `tfer--` prefix
is prepended. -/
def TfSanitize (name : Str) : Str :=
  str "tfer--" ++ concatMap (fun c => if isSafeChar c then [c] else escapeRune c) name

/-- Input of the C2 counterexample: a `required_providers` opener with no
closing brace anywhere after it. -/
def c2Input : Str :=
  str "terraform \x7b\n\trequired_providers \"aws\" \x7b\n\t\tsource = \"s\""

/-- The same input, split into lines. -/
def c2Lines : List Str := splitOnC '\n' c2Input

/-! ### JSON serialization (model of `encoding/json.MarshalIndent(v, "", "  ")`)

The library is external to the repository; it is modelled executably:
object keys are emitted in sorted order (as `encoding/json` does for Go
maps), numbers are integers, and strings are escaped with the default
HTML-escaping encoder. -/

/-- Lower-case hexadecimal digit (for `\u00xx` escapes). -/
def hexDigitL : Nat → Char
  | 0 => '0' | 1 => '1' | 2 => '2' | 3 => '3' | 4 => '4' | 5 => '5'
  | 6 => '6' | 7 => '7' | 8 => '8' | 9 => '9' | 10 => 'a' | 11 => 'b'
  | 12 => 'c' | 13 => 'd' | 14 => 'e' | _ => 'f'

/-- Escape of one character inside a JSON string, as Go's default encoder
writes it (HTML-escaping `<`, `>`, `&`). -/
def escJsonChar (c : Char) : Str :=
  if c = '"' then str "\\\""
  else if c = '\\' then str "\\\\"
  else if c = '\n' then str "\\n"
  else if c = '\r' then str "\\r"
  else if c = '\t' then str "\\t"
  else if c = '<' then str "\\u003c"
  else if c = '>' then str "\\u003e"
  else if c = '&' then str "\\u0026"
  else if c.toNat < 0x20 then
    str "\\u00" ++ [hexDigitL (c.toNat / 16), hexDigitL (c.toNat % 16)]
  else [c]

/-- A JSON string literal. -/
def quoteJson (s : Str) : Str := '"' :: (concatMap escJsonChar s ++ ['"'])

/-- Two-space indentation at nesting depth `d`. -/
def indentAt (d : Nat) : Str := List.replicate (2 * d) ' '

/-- Join rendered pieces with a separator string. -/
def joinSepStr (sep : Str) : List Str → Str
  | [] => []
  | [s] => s
  | s :: t :: rest => s ++ sep ++ joinSepStr sep (t :: rest)

/-- Assemble an indented JSON composite: `[]`/`{}` when empty, otherwise
the pieces each on its own line, indented one level deeper. -/
def assembleBlock (opn cls : Char) (d : Nat) (pieces : List Str) : Str :=
  match pieces with
  | [] => [opn, cls]
  | _ =>
    opn :: '\n' ::
      (joinSepStr (str ",\n") (pieces.map (fun p => indentAt (d + 1) ++ p)) ++
        ('\n' :: (indentAt d ++ [cls])))

mutual
/-- Model of `json.MarshalIndent(v, "", "  ")` at nesting depth `d`. -/
def marshalV : Nat → GoValue → Str
  | _, .vnull => str "null"
  | _, .vbool b => if b then str "true" else str "false"
  | _, .vnum n => intToStr n
  | _, .vstr s => quoteJson s
  | d, .varr items => assembleBlock '[' ']' d (marshalList (d + 1) items)
  | d, .vobj o =>
    let entries := insSortBy (fun a b => strLeB a.1 b.1) (marshalObjPairs (d + 1) o)
    assembleBlock '\x7b' '\x7d' d
      (entries.map (fun kv => quoteJson kv.1 ++ (str ": " ++ kv.2)))
/-- Rendered elements of an array. -/
def marshalList : Nat → GoList → List Str
  | _, .nil => []
  | d, .cons v rest => marshalV d v :: marshalList d rest
/-- Keys paired with rendered values of an object (sorted by the caller). -/
def marshalObjPairs : Nat → GoObj → List (Str × Str)
  | _, .nil => []
  | d, .cons k v rest => (k, marshalV d v) :: marshalObjPairs d rest
end

/-! ### JSON parsing (model of `encoding/json.Unmarshal` into `*interface{}`)

Unmarshalling into a pointer to a non-pointer-holding interface stores a
generic decoded value of any JSON kind. Numbers are modelled as optional
sign plus digits (no fraction/exponent); `\u` escapes are not modelled.
The recursion is fuelled; the fuel chosen by `parseJsonGo` is ample for
the descent, which consumes input as it goes. -/

/-- JSON inter-token whitespace. -/
def skipWs (s : Str) : Str :=
  s.dropWhile (fun c => c == ' ' || c == '\t' || c == '\n' || c == '\r')

/-- Decode of a backslash escape inside a JSON string. -/
def escDecode (e : Char) : Option Char :=
  if e = 'n' then some '\n'
  else if e = 't' then some '\t'
  else if e = 'r' then some '\r'
  else if e = 'b' then some '\x08'
  else if e = 'f' then some '\x0c'
  else if e = '"' ∨ e = '\\' ∨ e = '/' then some e
  else none

/-- Numeric value of a digit run. -/
def digitsToNat (ds : Str) : Nat :=
  ds.foldl (fun acc c => acc * 10 + (c.toNat - 48)) 0

/-- Parse an integer literal; a following fraction dot or exponent makes
the parse fail (a model restriction: Go would read a float64). -/
def parseNum (s : Str) : Option (GoValue × Str) :=
  match s with
  | '-' :: rest =>
    let ds := rest.takeWhile isDigitC
    let rem := rest.drop ds.length
    if ds.isEmpty then none
    else match rem with
      | '.' :: _ => none
      | 'e' :: _ => none
      | 'E' :: _ => none
      | _ => some (.vnum (-(digitsToNat ds : Int)), rem)
  | _ =>
    let ds := s.takeWhile isDigitC
    let rem := s.drop ds.length
    if ds.isEmpty then none
    else match rem with
      | '.' :: _ => none
      | 'e' :: _ => none
      | 'E' :: _ => none
      | _ => some (.vnum (digitsToNat ds), rem)

/-- Insertion with Go-map semantics while decoding an object: the entry
already present (a later duplicate key, since entries are consed from the
tail) wins, matching `map[k] = v` evaluation order. -/
def objInsertGo (k : Str) (v : GoValue) (o : GoObj) : GoObj :=
  if o.memKey k then o else .cons k v o

mutual
/-- Parse one JSON value. -/
def parseVal : Nat → Str → Option (GoValue × Str)
  | 0, _ => none
  | fuel + 1, s0 =>
    let s := skipWs s0
    if hasPfx (str "null") s then some (.vnull, s.drop 4)
    else if hasPfx (str "true") s then some (.vbool true, s.drop 4)
    else if hasPfx (str "false") s then some (.vbool false, s.drop 5)
    else
      match s with
      | [] => none
      | c :: rest =>
        if c = '"' then
          match parseStrBody fuel rest with
          | some (cs, rem) => some (.vstr cs, rem)
          | none => none
        else if c = '[' then
          match skipWs rest with
          | ']' :: rem => some (.varr .nil, rem)
          | s2 =>
            match parseArrItems fuel s2 with
            | some (items, rem) => some (.varr items, rem)
            | none => none
        else if c = '\x7b' then
          match skipWs rest with
          | '\x7d' :: rem => some (.vobj .nil, rem)
          | s2 =>
            match parseObjItems fuel s2 with
            | some (o, rem) => some (.vobj o, rem)
            | none => none
        else parseNum (c :: rest)
/-- Parse the items of a non-empty array, up to and including `]`. -/
def parseArrItems : Nat → Str → Option (GoList × Str)
  | 0, _ => none
  | fuel + 1, s =>
    match parseVal fuel s with
    | none => none
    | some (v, rem) =>
      match skipWs rem with
      | ',' :: rem3 =>
        match parseArrItems fuel rem3 with
        | some (items, rem4) => some (.cons v items, rem4)
        | none => none
      | ']' :: rem3 => some (.cons v .nil, rem3)
      | _ => none
/-- Parse the entries of a non-empty object, up to and including the
closing brace. -/
def parseObjItems : Nat → Str → Option (GoObj × Str)
  | 0, _ => none
  | fuel + 1, s =>
    match skipWs s with
    | '"' :: rest =>
      match parseStrBody fuel rest with
      | none => none
      | some (k, rem) =>
        match skipWs rem with
        | ':' :: rem2 =>
          match parseVal fuel rem2 with
          | none => none
          | some (v, rem3) =>
            match skipWs rem3 with
            | ',' :: rem5 =>
              match parseObjItems fuel rem5 with
              | some (o, rem6) => some (objInsertGo k v o, rem6)
              | none => none
            | '\x7d' :: rem5 => some (.cons k v .nil, rem5)
            | _ => none
        | _ => none
    | _ => none
/-- Parse the body of a string literal, after the opening quote. -/
def parseStrBody : Nat → Str → Option (Str × Str)
  | 0, _ => none
  | fuel + 1, s =>
    match s with
    | [] => none
    | '"' :: rem => some ([], rem)
    | '\\' :: e :: rest =>
      match escDecode e with
      | none => none
      | some c =>
        match parseStrBody fuel rest with
        | some (cs, rem) => some (c :: cs, rem)
        | none => none
    | c :: rest =>
      match parseStrBody fuel rest with
      | some (cs, rem) => some (c :: cs, rem)
      | none => none
end

/-- Model of `json.Unmarshal(data, &tmp)` for `tmp` an interface value:
any JSON value parses; trailing non-whitespace is an error. (hcl.go runs
Unmarshal a second time into a slice on failure; decoding into an
interface already accepts every JSON kind, so one parse models both.) -/
def parseJsonGo (s : Str) : Option GoValue :=
  match parseVal (2 * s.length + 4) s with
  | some (v, rem) => if (skipWs rem).isEmpty then some v else none
  | none => none

/-! ### hcl.go: heredoc restoration (`astSanitizer.handleHeredoc`) -/

/-- HCL tokens: the text and the token type (10 is `token.HEREDOC`). -/
structure Token where
  text : Str
  ttype : Nat
deriving DecidableEq

/-- The unwrapped heredoc body: quotes stripped, literal two-character
escapes replaced — backslash-n becomes a newline and backslash-t is
removed. -/
def heredocBody (text : Str) : Str :=
  replAll (str "\\t") [] (replAll (str "\\n") (str "\n") ((text.drop 1).dropLast))

/-- The body split into lines: opening marker, inner lines, terminator. -/
def heredocLines (text : Str) : List Str := splitOnC '\n' (heredocBody text)

/-- The JSON candidate: the lines between the first (marker) and last
(terminator), with the escaped quotes unescaped. -/
def heredocJsonTest (text : Str) : Str :=
  replAll (str "\\\"") (str "\"") (joinC '\n' (((heredocLines text).drop 1).dropLast))

/-- Go `astSanitizer.handleHeredoc(t)`: a literal whose raw text begins
with the quoted heredoc marker is unwrapped, its newline and tab escape
artifacts undone, and its type set to HEREDOC; when the inner body parses
as JSON it is re-serialized at 2-space indentation between the preserved
first and last lines. (For a body without any newline the Go code would
slice `lines[1:0]` and panic; the model instead produces an empty — thus
non-JSON — candidate and keeps the unwrapped text, a case outside every
claim under study.) -/
def handleHeredoc (t : Token) : Token :=
  if hasPfx (str "\"<<") t.text then
    match parseJsonGo (heredocJsonTest t.text) with
    | some v =>
      { text := joinC '\n'
          ((heredocLines t.text).headD [] ::
            (splitOnC '\n' (marshalV 0 v) ++ [(heredocLines t.text).getLastD []])),
        ttype := 10 }
    | none => { text := heredocBody t.text, ttype := 10 }
  else t

/-- The heredoc token of the spec's round-trip example:
raw text quote, marker, escaped newline, a small JSON object, escaped
newline, terminator, quote. -/
def c7Tok : Token :=
  { text := str "\"<<EOF\\n\x7b\\\"a\\\":1\x7d\\nEOF\"", ttype := 9 }

/-! ### The HCL AST and the sanitizer (`astSanitizer`)

The `ast` node shapes of hashicorp/hcl that hcl.go visits: object lists
(and object types carrying one), list types, literals, and object items
with their key tokens. The third-party printer `hclPrinter.Fprint` is
modelled by a simplified deterministic renderer (`renderNode`); the
sanitizer's ordering decisions compare rendered text through it, exactly
as `sortHclTree` does through `Fprint`. -/

mutual
inductive HNode where
  | objectList : HItems → HNode
  | objectType : HItems → HNode
  | listType : HNodes → HNode
  | literal : Token → HNode
inductive HNodes where
  | nil : HNodes
  | cons : HNode → HNodes → HNodes
inductive HItems where
  | nil : HItems
  | cons : HItem → HItems → HItems
inductive HItem where
  | mk : List Token → HNode → HItem
end

deriving instance DecidableEq for HNode, HNodes, HItems, HItem

/-- The key tokens of an object item. -/
def HItem.keys : HItem → List Token
  | .mk ks _ => ks

/-- The value of an object item. -/
def HItem.val : HItem → HNode
  | .mk _ v => v

/-- Item sequences as Lean lists. -/
def HItems.toL : HItems → List HItem
  | .nil => []
  | .cons it rest => it :: rest.toL

/-- Item sequences from Lean lists. -/
def HItems.ofL : List HItem → HItems
  | [] => .nil
  | it :: rest => .cons it (HItems.ofL rest)

/-- Node sequences as Lean lists. -/
def HNodes.toL : HNodes → List HNode
  | .nil => []
  | .cons n rest => n :: rest.toL

/-- Node sequences from Lean lists. -/
def HNodes.ofL : List HNode → HNodes
  | [] => .nil
  | n :: rest => .cons n (HNodes.ofL rest)

mutual
/-- Model of the third-party printer `hclPrinter.Fprint` on a node. -/
def renderNode : HNode → Str
  | .literal t => t.text
  | .objectList items => renderItems items
  | .objectType items => str "\x7b\n" ++ (renderItems items ++ [( '\x7d' : Char)])
  | .listType ns => '[' :: (joinSepStr (str ", ") (renderNodes ns) ++ [(']' : Char)])
/-- Rendered object items, one per line. -/
def renderItems : HItems → Str
  | .nil => []
  | .cons it rest => renderItem it ++ ('\n' :: renderItems rest)
/-- One rendered object item (the sanitizer forces a valid Assign token
on every item, so the printer always writes the equals sign). -/
def renderItem : HItem → Str
  | .mk keys v => joinSepStr (str " ") (keys.map Token.text) ++ (str " = " ++ renderNode v)
/-- Rendered elements of a list node. -/
def renderNodes : HNodes → List Str
  | .nil => []
  | .cons n rest => renderNode n :: renderNodes rest
end

/-- Go `sortHclTree` on `[]*ast.ObjectItem`: sort by the printed text of
each item (`sort.Slice` with `Fprint` output comparison; modelled by a
deterministic insertion sort on the same key). -/
def sortItemsByRender (l : List HItem) : List HItem :=
  insSortBy (fun a b => strLeB (renderItem a) (renderItem b)) l

/-- Go `sortHclTree` on `[]ast.Node`. -/
def sortNodesByRender (l : List HNode) : List HNode :=
  insSortBy (fun a b => strLeB (renderNode a) (renderNode b)) l

/-- The ordering-hint table `hintsByResource`: resource type → resource
name → list of dotted logical paths. -/
abbrev Hints := List (Str × List (Str × List Str))

/-- Association-list lookup (a Go map read). -/
def lookupA : List (Str × α) → Str → Option α
  | [], _ => none
  | (k, a) :: rest, key => if k = key then some a else lookupA rest key

/-- Go `v.hintsByResource[resourceType][resourceName]` with comma-ok (a
missing outer entry yields a nil inner map, whose read misses too). -/
def lookup2 (h : Hints) (t n : Str) : Option (List Str) :=
  match lookupA h t with
  | none => none
  | some inner => lookupA inner n

/-- The state the sanitizer threads: the sort flag, the hint table, and
the current AST path. -/
structure SanCtx where
  sortFlag : Bool
  hints : Hints
  path : List Str
deriving DecidableEq

/-- Go `astSanitizer.buildLogicalPath`: the dotted path of the labels
after the three-segment resource/type/name prefix, numeric (Atoi-parsed)
indices dropped. -/
def buildLogicalPath (path : List Str) : Str :=
  joinDot ((path.drop 3).filter (fun p => !isGoInt p))

/-- Go `astSanitizer.isPathOrdered`: the current path addresses a
resource, and the joined logical path equals one of the hints registered
for that exact type and name. -/
def isPathOrdered (ctx : SanCtx) (p : Str) : Bool :=
  match ctx.path with
  | r :: t :: n :: _ =>
    if r = str "resource" then
      match lookup2 ctx.hints t n with
      | some hs => hs.any (fun h => h == p)
      | none => false
    else false
  | _ => false

/-- The hint loop of the ObjectList case: the first hint that extends the
current logical path by exactly one dotted segment names the key whose
items must keep their order. -/
def findUnorderedKey (hs : List Str) (lp : Str) : Option Str :=
  match hs with
  | [] => none
  | h :: rest =>
    if hasPfx lp h && !lp.isEmpty then
      let remainder := h.drop lp.length
      if hasPfx (str ".") remainder && !((remainder.drop 1).any (fun c => c == '.')) then
        some (remainder.drop 1)
      else findUnorderedKey rest lp
    else findUnorderedKey rest lp

/-- The resource-scoped hint check of the ObjectList case
(`len(currentPath) >= 3 && currentPath[0] == "resource"`, then the hint
loop over the hints of this type and name). -/
def unorderedKeyOf (ctx : SanCtx) : Option Str :=
  match ctx.path with
  | r :: t :: n :: _ =>
    if r = str "resource" then
      match lookup2 ctx.hints t n with
      | some hs => findUnorderedKey hs (buildLogicalPath ctx.path)
      | none => none
    else none
  | _ => none

/-- Model of Go `strconv.Unquote` for the double-quoted, escape-free keys
the pipeline produces; any other form fails and the caller falls back to
the raw text. -/
def goUnquote (s : Str) : Option Str :=
  match s with
  | '"' :: rest =>
    if rest.getLast? = some '"' &&
        (rest.dropLast).all (fun c => !(c == '"') && !(c == '\\')) then
      some rest.dropLast
    else none
  | _ => none

/-- `strconv.Unquote` with the fallback to the raw text on error. -/
def goUnquoteF (s : Str) : Str := (goUnquote s).getD s

/-- The first-key normalization of `visitObjectItem`: a quoted key whose
inner text uses only safe characters is unquoted; one starting with `--`
is re-wrapped in quotes first. (For the one-character token `"` the Go
code would slice `text[1:0]` and panic; the model's drop/dropLast yield
the empty key instead — outside every claim under study.) -/
def fixKeyTok (tok : Token) : Token :=
  let text := tok.text
  if !text.isEmpty && text.headD ' ' == '"' && text.getLastD ' ' == '"' then
    let vs := (text.drop 1).dropLast
    let safe := vs.all isSafeChar
    let vs2 := if hasPfx (str "--") vs then '"' :: (vs ++ ['"']) else vs
    if safe then { tok with text := vs2 } else tok
  else tok

/-- Only the first key of an item is normalized (`if i == 0`). -/
def fixFirstKey : List Token → List Token
  | [] => []
  | k0 :: rest => fixKeyTok k0 :: rest

/-- The path segments an item pushes: every key, unquoted with fallback. -/
def itemKeyStrings (keys : List Token) : List Str :=
  keys.map (fun k => goUnquoteF k.text)

/-- The partition key of an item in the ObjectList case:
`strconv.Unquote(item.Keys[0].Token.Text)` with fallback to the raw text
(the hashicorp JSON parser gives every item at least one key). -/
def itemKey (it : HItem) : Str :=
  goUnquoteF ((it.keys.headD { text := [], ttype := 0 }).text)

/-- The ordering decision of the ObjectList case, applied after the
children have been visited: when a hint names an unordered key, the items
are partitioned — those with the hinted key keep their original relative
order and come first, the remainder is sorted by rendered text; with no
hint match, all items are sorted. -/
def sortPhase (ctx : SanCtx) (items2 : HItems) : HItems :=
  if !ctx.sortFlag then items2
  else
    match unorderedKeyOf ctx with
    | some k =>
      let parts := items2.toL.partition (fun it => itemKey it == k)
      HItems.ofL (parts.1 ++ sortItemsByRender parts.2)
    | none => HItems.ofL (sortItemsByRender items2.toL)

/-- The ordering decision of the ListType case: the list is sorted unless
the current logical path is itself hint-protected. -/
def sortListPhase (ctx : SanCtx) (ns2 : HNodes) : HNodes :=
  if ctx.sortFlag && !isPathOrdered ctx (buildLogicalPath ctx.path) then
    HNodes.ofL (sortNodesByRender ns2.toL)
  else ns2

mutual
/-- Go `astSanitizer.visit`: children are processed first (depth-first,
paths tracked), then the node's own ordering decision is applied. An
ObjectType visits its inner ObjectList, sharing that case's code path. -/
def visitNode (ctx : SanCtx) : HNode → HNode
  | .objectList items => .objectList (sortPhase ctx (visitItems ctx items))
  | .objectType items => .objectType (sortPhase ctx (visitItems ctx items))
  | .listType ns => .listType (sortListPhase ctx (visitNodesIdx ctx 0 ns))
  | .literal t => .literal (handleHeredoc t)
/-- Visit of each item of an object list. -/
def visitItems (ctx : SanCtx) : HItems → HItems
  | .nil => .nil
  | .cons it rest => .cons (visitItem ctx it) (visitItems ctx rest)
/-- Go `astSanitizer.visitObjectItem`: normalize the first key, push all
(unquoted) keys onto the path, visit the value. (The `Assign.Line = 1`
printer hack carries no information the model renders differently.) -/
def visitItem (ctx : SanCtx) : HItem → HItem
  | .mk keys v =>
    let keys2 := fixFirstKey keys
    .mk keys2 (visitNode { ctx with path := ctx.path ++ itemKeyStrings keys2 } v)
/-- Visit of list elements, each with its index pushed onto the path. -/
def visitNodesIdx (ctx : SanCtx) (i : Nat) : HNodes → HNodes
  | .nil => .nil
  | .cons n rest =>
    .cons (visitNode { ctx with path := ctx.path ++ [natToStr i] } n)
      (visitNodesIdx ctx (i + 1) rest)
end

/-- Resource type of the C4 witness. -/
def c4T : Str := str "t"

/-- Resource name of the C4 witness. -/
def c4N : Str := str "n"

/-- Sanitizer context of the C4 witness: inside the `build` container of
resource `t.n`, with the hint `build.step` registered for it. -/
def c4Ctx : SanCtx :=
  { sortFlag := true,
    hints := [(c4T, [(c4N, [str "build.step"])])],
    path := [str "resource", c4T, c4N, str "build"] }

/-- An object item with one literal-token key and a literal value. -/
def mkLit (k v : String) : HItem :=
  .mk [{ text := str k, ttype := 4 }] (.literal { text := str v, ttype := 9 })

/-- Items of the C4 witness: two `step` items (values out of sorted
order) around other attributes. -/
def c4Items : HItems :=
  .cons (mkLit "timeout" "\"60s\"")
    (.cons (mkLit "step" "\"z-last\"")
      (.cons (mkLit "queue" "\"q\"")
        (.cons (mkLit "step" "\"a-first\"") .nil)))

/-! ### hcl.go: document assembly and the full render pipeline -/

/-- Whether `pat` is a suffix of `s` (Go `strings.HasSuffix`). -/
def hasSfx (pat s : Str) : Bool := hasPfx pat.reverse s.reverse

/-- Drop the last `n` characters (Go `strings.TrimSuffix` under a
suffix guard). -/
def dropSfxN (s : Str) (n : Nat) : Str := s.take (s.length - n)

/-- Fuelled worker for `stripIndexes`. -/
def stripIndexesF : Nat → Str → Str
  | _, [] => []
  | 0, s => s
  | fuel + 1, c :: rest =>
    if c = '.' && !(rest.takeWhile isDigitC).isEmpty then
      stripIndexesF fuel (rest.dropWhile isDigitC)
    else c :: stripIndexesF fuel rest

/-- Go `indexRe.ReplaceAllString(key, "")` with `indexRe` the regexp of a
dot followed by at least one digit: removes every leftmost-longest
dot-digits run. -/
def stripIndexes (s : Str) : Str := stripIndexesF s.length s

/-- The fields of `terraformutils.Resource` that `HclPrintResource`
reads: `InstanceInfo.Type`, `ResourceName`, `Item` (non-nil after
`ParseTFstate`), `InstanceState.Attributes` (a Go map, presented as an
association list in arbitrary iteration order), and `PreserveOrder`. -/
structure ResourceM where
  rtype : Str
  name : Str
  item : GoObj
  attributes : List (Str × Str)
  preserveOrder : List Str
deriving DecidableEq

/-- The `mapsObjects` set, modelled by its characteristic function. -/
def setInsert (f : Str → Bool) (k : Str) : Str → Bool :=
  fun s => if s = k then true else f s

/-- One attribute key inspected by the `mapsObjects` loop: a key with the
`.%` map-count suffix registers its index-stripped remainder. -/
def markMapKey (f : Str → Bool) (kv : Str × Str) : Str → Bool :=
  if hasSfx (str ".%") kv.1 then setInsert f (stripIndexes (dropSfxN kv.1 2)) else f

/-- The `for k := range res.InstanceState.Attributes` loop. -/
def addAttrs (f : Str → Bool) (attrs : List (Str × Str)) : Str → Bool :=
  attrs.foldl markMapKey f

/-- `resourcesByType`: type → name → item, in insertion order. -/
abbrev ByType := List (Str × List (Str × GoObj))

/-- Go `resourcesByType[type][name]` (with the nil-map read on a missing
type). -/
def byTypeLookup (bt : ByType) (t n : Str) : Option GoObj :=
  match lookupA bt t with
  | none => none
  | some r => lookupA r n

/-- Go `r[res.ResourceName] = res.Item` after creating the inner map when
missing; the caller has checked the name is absent. -/
def byTypeInsert : ByType → Str → Str → GoObj → ByType
  | [], t, n, it => [(t, [(n, it)])]
  | (t0, r) :: rest, t, n, it =>
    if t0 = t then (t0, r ++ [(n, it)]) :: rest
    else (t0, r) :: byTypeInsert rest t n it

/-- Go map assignment on an association list. -/
def assocSet : List (Str × α) → Str → α → List (Str × α)
  | [], k, a => [(k, a)]
  | (k0, a0) :: rest, k, a =>
    if k0 = k then (k0, a) :: rest else (k0, a0) :: assocSet rest k a

/-- Go `hintsByResource[type][name] = res.PreserveOrder` after creating
the inner map when missing. -/
def hintsInsert : Hints → Str → Str → List Str → Hints
  | [], t, n, po => [(t, [(n, po)])]
  | (t0, r) :: rest, t, n, po =>
    if t0 = t then (t0, assocSet r n po) :: rest
    else (t0, r) :: hintsInsert rest t n po

/-- The state accumulated by the resource loop of `HclPrintResource`:
the grouped resources, the map-shape set, the hint table, and the
duplicate warnings logged so far (the Go code logs
`[ERR]: duplicate resource found: type.name`; the model records the
pair). -/
structure AsmState where
  byType : ByType
  maps : Str → Bool
  hints : Hints
  warnings : List (Str × Str)

/-- One iteration of the resource loop: a (type, name) already present
logs a warning and skips the rest of the body (`continue`), so a
duplicate registers neither map shapes nor hints; otherwise the resource
is grouped, its `.%` attribute keys are registered, and a non-empty
`PreserveOrder` installs its hints. -/
def assembleStep (st : AsmState) (res : ResourceM) : AsmState :=
  match byTypeLookup st.byType res.rtype res.name with
  | some _ => { st with warnings := st.warnings ++ [(res.rtype, res.name)] }
  | none =>
    { byType := byTypeInsert st.byType res.rtype res.name res.item,
      maps := addAttrs st.maps res.attributes,
      hints :=
        if res.preserveOrder.isEmpty then st.hints
        else hintsInsert st.hints res.rtype res.name res.preserveOrder,
      warnings := st.warnings }

/-- The initial loop state. -/
def asmInit : AsmState :=
  { byType := [], maps := fun _ => false, hints := [], warnings := [] }

/-- The whole resource loop of `HclPrintResource`. -/
def assemble (rs : List ResourceM) : AsmState := rs.foldl assembleStep asmInit

/-- The grouped resources as a dynamic value (`data["resource"]`). -/
def byTypeToGo (bt : ByType) : GoObj :=
  GoObj.ofL (bt.map (fun tr =>
    (tr.1, GoValue.vobj (GoObj.ofL (tr.2.map (fun nr => (nr.1, GoValue.vobj nr.2)))))))

/-- The document handed to `Print`: the resource group when non-empty,
and the provider blocks when non-empty. -/
def printData (bt : ByType) (providerData : GoObj) : GoObj :=
  GoObj.ofL
    ((if bt.isEmpty then [] else [(str "resource", GoValue.vobj (byTypeToGo bt))]) ++
      (match providerData with
       | .nil => []
       | _ => [(str "provider", GoValue.vobj providerData)]))

/-- Modelled from the spec: `jsonPrint`, the generic tree serializer (the
"plain structured-data form" of the render interface), whose own source
file is not part of the corpus: deterministic JSON with map keys emitted
in sorted order, as Go's `encoding/json` marshalling produces. -/
def jsonPrint (data : GoValue) : Str := marshalV 0 data

mutual
/-- Model of the hashicorp JSON-to-HCL parser's node construction: every
object becomes an ObjectType of single-key items, arrays become list
nodes, scalars become literal tokens. -/
def toHclNode : GoValue → HNode
  | .vnull => .literal { text := str "null", ttype := 9 }
  | .vbool b => .literal { text := if b then str "true" else str "false", ttype := 9 }
  | .vnum n => .literal { text := intToStr n, ttype := 9 }
  | .vstr s => .literal { text := quoteJson s, ttype := 9 }
  | .varr l => .listType (toHclNodes l)
  | .vobj o => .objectType (toHclItems o)
/-- Array elements. -/
def toHclNodes : GoList → HNodes
  | .nil => .nil
  | .cons v rest => .cons (toHclNode v) (toHclNodes rest)
/-- Object entries, each a single-key item with a quoted key token. -/
def toHclItems : GoObj → HItems
  | .nil => .nil
  | .cons k v rest =>
    .cons (.mk [{ text := quoteJson k, ttype := 9 }] (toHclNode v)) (toHclItems rest)
end

/-- Model of `hclParser.Parse` (external hashicorp library): parse the
JSON text and build the AST; the file node of a top-level object is its
ObjectList. -/
def hclParseModel (s : Str) : Option HNode :=
  match parseJsonGo s with
  | some (GoValue.vobj o) => some (.objectList (toHclItems o))
  | some v => some (toHclNode v)
  | none => none

/-- Model of `hclPrinter.Format` (external library): the alignment pass
is the identity on the model's already-canonical rendering. -/
def hclFormatModel (s : Str) : Str := s

/-- Go `hclPrint(data, mapsObjects, sort, hintsByResource)`: serialize to
JSON, parse back, sanitize (key fixing, heredocs, ordering), print,
normalize blank lines, separate resource blocks, format, then the two
compatibility rewriters. A missing `required_providers` closing brace
panics in Go; the model surfaces that as an error value. -/
def hclPrint (data : GoValue) (maps : Str → Bool) (sortFlag : Bool) (hints : Hints) :
    Except Str Str :=
  match hclParseModel (jsonPrint data) with
  | none => .error (str "error parsing terraform json")
  | some node =>
    let node2 := visitNode { sortFlag := sortFlag, hints := hints, path := [] } node
    let s1 := replAll (str "\n\n") (str "\n") (renderNode node2)
    let s2 := replAll (str "\x7d\nresource") (str "\x7d\n\nresource") s1
    let f12 := terraform12Adjustments maps (hclFormatModel s2)
    match terraform13Adjustments f12 with
    | some out => .ok out
    | none => .error (str "panic: index out of range")

/-- Go `Print(data, mapsObjects, format, sort, hintsByResource)`. -/
def Print (data : GoValue) (maps : Str → Bool) (format : Str) (sortFlag : Bool)
    (hints : Hints) : Except Str Str :=
  if format = str "hcl" then hclPrint data maps sortFlag hints
  else if format = str "json" then .ok (jsonPrint data)
  else .error (str "error: unknown output format")

/-- Go `HclPrintResource(resources, providerData, output, sort)`. -/
def HclPrintResource (resources : List ResourceM) (providerData : GoObj)
    (output : Str) (sortFlag : Bool) : Except Str Str :=
  let st := assemble resources
  Print (GoValue.vobj (printData st.byType providerData)) st.maps output sortFlag st.hints

/-- Keep the first resource of every (type, name) pair, relative to the
pairs already seen. -/
def dedupSeen (seen : List (Str × Str)) : List ResourceM → List ResourceM
  | [] => []
  | r :: rest =>
    if seen.contains (r.rtype, r.name) then dedupSeen seen rest
    else r :: dedupSeen ((r.rtype, r.name) :: seen) rest

/-- Keep the first resource of every (type, name) pair. -/
def dedupKeepFirst (rs : List ResourceM) : List ResourceM := dedupSeen [] rs

/-- Two resource values denote identical Go inputs: all fields equal,
except that the `Attributes` Go map may be iterated in any order, so its
association lists are permutations of each other. -/
def ResourceMEquiv (r1 r2 : ResourceM) : Prop :=
  r1.rtype = r2.rtype ∧ r1.name = r2.name ∧ r1.item = r2.item ∧
    r1.preserveOrder = r2.preserveOrder ∧ r1.attributes.Perm r2.attributes

/-- The loop state without the warning log (which the render output
never reads). -/
def AsmCore (st : AsmState) : ByType × (Str → Bool) × Hints :=
  (st.byType, st.maps, st.hints)

/-- `assembleStep` on the warning-free core. -/
def coreStep (c : ByType × (Str → Bool) × Hints) (res : ResourceM) :
    ByType × (Str → Bool) × Hints :=
  match byTypeLookup c.1 res.rtype res.name with
  | some _ => c
  | none =>
    (byTypeInsert c.1 res.rtype res.name res.item,
     addAttrs c.2.1 res.attributes,
     if res.preserveOrder.isEmpty then c.2.2
     else hintsInsert c.2.2 res.rtype res.name res.preserveOrder)

/-- The registration condition of the map-shape set: some attribute key
of the resource ends in the `.%` map-count suffix and strips (suffix,
then numeric indices) to the path in question. -/
def registersPath (r : ResourceM) (k : Str) : Prop :=
  ∃ kv ∈ r.attributes, hasSfx (str ".%") kv.1 = true ∧
    stripIndexes (dropSfxN kv.1 2) = k

/-- Resources of the C1 witness and the C6/C9 instances. -/
def c1ResA : ResourceM :=
  { rtype := str "aws_instance", name := str "tfer--web",
    item := .cons (str "tags")
      (.varr (.cons (.vobj (.cons (str "env") (.vstr (str "prod")) .nil)) .nil)) .nil,
    attributes := [(str "tags.%", str "1"), (str "tags.env", str "prod")],
    preserveOrder := [] }

/-- The same resource with its attribute map iterated in the other
order. -/
def c1ResB : ResourceM :=
  { c1ResA with attributes := [(str "tags.env", str "prod"), (str "tags.%", str "1")] }

/-- A duplicate of `c1ResA`'s (type, name) with a different item. -/
def c9Dup : ResourceM :=
  { c1ResA with item := .cons (str "ami") (.vstr (str "other")) .nil,
                attributes := [(str "meta.%", str "0")] }

/-- Invariant coupling the grouped-resource table with the (type, name)
pairs already seen: a pair is present in the table exactly when it was
seen. -/
def SeenInv (bt : ByType) (seen : List (Str × Str)) : Prop :=
  ∀ t n, (byTypeLookup bt t n).isSome = seen.contains (t, n)

/-- Lines of the C6 witness: a resource block holding a map-shaped
`tags` attribute. -/
def c6Lines : List Str :=
  [str "resource \"aws_instance\" \"tfer--web\" \x7b",
   str "  tags = \x7b",
   str "    env = \"prod\"",
   str "  \x7d",
   str "\x7d"]

/-! ### Helper lemmas: induction principles and map laws -/

/-- Induction principle for `GoObj` alone (the mutual recursor is awkward
for proofs that never descend into values). -/
theorem goObjInd {motive : GoObj → Prop} (h0 : motive .nil)
    (h1 : ∀ k v r, motive r → motive (.cons k v r)) (o : GoObj) : motive o := by
  have key : ∀ n (o : GoObj), sizeOf o ≤ n → motive o := by
    intro n
    induction n with
    | zero =>
      intro o ho
      cases o with
      | nil => exact h0
      | cons k v r =>
        simp [GoObj.cons.sizeOf_spec] at ho
    | succ n ih =>
      intro o ho
      cases o with
      | nil => exact h0
      | cons k v r =>
        refine h1 k v r (ih r ?_)
        simp [GoObj.cons.sizeOf_spec] at ho
        omega
  exact key (sizeOf o) o le_rfl

/-- Induction principle for `GoList` alone. -/
theorem goListInd {motive : GoList → Prop} (h0 : motive .nil)
    (h1 : ∀ v r, motive r → motive (.cons v r)) (l : GoList) : motive l := by
  have key : ∀ n (l : GoList), sizeOf l ≤ n → motive l := by
    intro n
    induction n with
    | zero =>
      intro l hl
      cases l with
      | nil => exact h0
      | cons v r =>
        simp [GoList.cons.sizeOf_spec] at hl
    | succ n ih =>
      intro l hl
      cases l with
      | nil => exact h0
      | cons v r =>
        refine h1 v r (ih r ?_)
        simp [GoList.cons.sizeOf_spec] at hl
        omega
  exact key (sizeOf l) l le_rfl

/-- A key that is not present looks up to `none`. -/
theorem lookup_eq_none_of_memKey_false {o : GoObj} {k : Str}
    (h : o.memKey k = false) : o.lookup k = none := by
  induction o using goObjInd with
  | h0 => simp [GoObj.lookup]
  | h1 k0 v0 rest ih =>
    simp only [GoObj.memKey] at h
    by_cases hk : k0 = k
    · rw [if_pos hk] at h
      cases h
    · rw [if_neg hk] at h
      simp [GoObj.lookup, hk, ih h]

/-- Deleting a key makes it absent. -/
theorem eraseKey_lookup_self (o : GoObj) (k : Str) : (o.eraseKey k).lookup k = none := by
  induction o using goObjInd with
  | h0 => simp [GoObj.eraseKey, GoObj.lookup]
  | h1 k0 v0 rest ih =>
    by_cases hk : k0 = k
    · simp [GoObj.eraseKey, hk, ih]
    · simp [GoObj.eraseKey, GoObj.lookup, hk, ih]

/-- Deleting one key leaves the others untouched. -/
theorem eraseKey_lookup_ne {o : GoObj} {k k2 : Str} (h : k2 ≠ k) :
    (o.eraseKey k).lookup k2 = o.lookup k2 := by
  induction o using goObjInd with
  | h0 => simp [GoObj.eraseKey]
  | h1 k0 v0 rest ih =>
    by_cases hk : k0 = k
    · subst hk
      have hne : k0 ≠ k2 := fun hc => h hc.symm
      simp [GoObj.eraseKey, GoObj.lookup, hne, ih]
    · simp only [GoObj.eraseKey, if_neg hk]
      by_cases h2 : k0 = k2
      · simp [GoObj.lookup, h2]
      · simp [GoObj.lookup, h2, ih]

/-- Keys of the erased map are keys of the original. -/
theorem eraseKey_memKey {o : GoObj} {k x : Str} (h : (o.eraseKey k).memKey x = true) :
    o.memKey x = true := by
  induction o using goObjInd with
  | h0 => simp [GoObj.eraseKey, GoObj.memKey] at h
  | h1 k0 v0 rest ih =>
    by_cases hk : k0 = k
    · rw [GoObj.eraseKey, if_pos hk] at h
      simp only [GoObj.memKey]
      by_cases h2 : k0 = x
      · rw [if_pos h2]
      · rw [if_neg h2]
        exact ih h
    · rw [GoObj.eraseKey, if_neg hk] at h
      simp only [GoObj.memKey] at h ⊢
      by_cases h2 : k0 = x
      · rw [if_pos h2]
      · rw [if_neg h2] at h ⊢
        exact ih h

/-- Deletion preserves key uniqueness. -/
theorem eraseKey_nodup {o : GoObj} {k : Str} (h : o.nodupKeys = true) :
    (o.eraseKey k).nodupKeys = true := by
  induction o using goObjInd with
  | h0 => simp [GoObj.eraseKey, GoObj.nodupKeys]
  | h1 k0 v0 rest ih =>
    simp only [GoObj.nodupKeys, Bool.and_eq_true, Bool.not_eq_true'] at h
    by_cases hk : k0 = k
    · rw [GoObj.eraseKey, if_pos hk]
      exact ih h.2
    · rw [GoObj.eraseKey, if_neg hk]
      simp only [GoObj.nodupKeys, Bool.and_eq_true, Bool.not_eq_true']
      refine ⟨?_, ih h.2⟩
      cases hm : (rest.eraseKey k).memKey k0 with
      | false => rfl
      | true => rw [eraseKey_memKey hm] at h; cases h.1

/-! ### Helper lemmas: schema depth and the cleanup recursion -/

/-- A block found in a nested-block table is at most as deep as the table. -/
theorem btLookup_depth {m : BTMap} {k : Str} {b : Block} (h : btLookup m k = some b) :
    b.depth ≤ m.depth := by
  have key : ∀ n (m : BTMap), sizeOf m ≤ n → btLookup m k = some b → b.depth ≤ m.depth := by
    intro n
    induction n with
    | zero =>
      intro m hm h2
      cases m with
      | nil => simp [btLookup] at h2
      | cons k2 b2 r =>
        simp [BTMap.cons.sizeOf_spec] at hm
    | succ n ih =>
      intro m hm h2
      cases m with
      | nil => simp [btLookup] at h2
      | cons k2 b2 r =>
        simp only [btLookup] at h2
        by_cases hk : k2 = k
        · rw [if_pos hk] at h2
          cases h2
          simp [BTMap.depth]
        · rw [if_neg hk] at h2
          have hr := ih r (by simp [BTMap.cons.sizeOf_spec] at hm; omega) h2
          simp only [BTMap.depth]
          omega
  exact key (sizeOf m) m le_rfl h

/-- Every block has positive depth. -/
theorem Block.depth_pos (b : Block) : 0 < b.depth := by
  cases b with
  | mk a m => simp [Block.depth]

/-- The nested-block table is one level shallower than its block. -/
theorem Block.bts_depth_succ (b : Block) : b.bts.depth + 1 = b.depth := by
  cases b with
  | mk a m => simp [Block.bts, Block.depth]

/-- Congruence of the per-item cleanup in the recursive calls it makes. -/
theorem cleanItemsStep_congr {r1 r2 : GoObj → Block → GoObj} {sub : Block}
    (h : ∀ m, r1 m sub = r2 m sub) (items : GoList) :
    cleanItemsStep r1 items sub = cleanItemsStep r2 items sub := by
  induction items using goListInd with
  | h0 => simp [cleanItemsStep]
  | h1 it rest ih =>
    simp only [cleanItemsStep, ih]
    cases it <;> simp [h]

/-- Congruence of the value transformation in the recursive calls it makes. -/
theorem cleanValStep_congr {r1 r2 : GoObj → Block → GoObj} {b : Block} {k : Str}
    (h : ∀ sub, btLookup b.bts k = some sub → ∀ m, r1 m sub = r2 m sub) (v : GoValue) :
    cleanValStep r1 b k v = cleanValStep r2 b k v := by
  unfold cleanValStep
  cases hbt : btLookup b.bts k with
  | none => rfl
  | some sub =>
    cases v <;> simp
    exact cleanItemsStep_congr (h sub hbt) _

/-- Congruence of one cleanup level in the recursive calls it makes. -/
theorem cleanStep_congr {r1 r2 : GoObj → Block → GoObj} {b : Block}
    (h : ∀ k sub, btLookup b.bts k = some sub → ∀ m, r1 m sub = r2 m sub) (data : GoObj) :
    cleanStep r1 data b = cleanStep r2 data b := by
  induction data using goObjInd with
  | h0 => simp [cleanStep]
  | h1 k v rest ih =>
    simp only [cleanStep, ih]
    by_cases hz : isOptZero b k v = true
    · simp [hz]
    · simp [hz, cleanValStep_congr (h k)]

/-- Any fuel at least the schema depth computes the same cleanup. -/
theorem cleanFuel_irrel :
    ∀ (n : Nat) (b : Block), b.depth ≤ n →
      ∀ (f : Nat) (data : GoObj), b.depth ≤ f →
        cleanFuel f data b = cleanFuel b.depth data b := by
  intro n
  induction n with
  | zero =>
    intro b hb
    have := b.depth_pos
    omega
  | succ n ih =>
    intro b hb f data hf
    have hpos := b.depth_pos
    obtain ⟨g, rfl⟩ : ∃ g, f = g + 1 := ⟨f - 1, by omega⟩
    have hd : b.depth = b.bts.depth + 1 := (b.bts_depth_succ).symm
    rw [hd]
    simp only [cleanFuel]
    refine cleanStep_congr (fun k sub hbt m => ?_) data
    have hsd : sub.depth ≤ b.bts.depth := btLookup_depth hbt
    have e1 := ih sub (by omega) g m (by omega)
    have e2 := ih sub (by omega) b.bts.depth m (by omega)
    rw [e1, e2]

/-- The cleanup of `cleanOptionalEmptyAttributes` never introduces a key. -/
theorem cleanStep_lookup_none {r : GoObj → Block → GoObj} {b : Block} {k : Str} :
    ∀ {data : GoObj}, data.lookup k = none → (cleanStep r data b).lookup k = none := by
  intro data
  induction data using goObjInd with
  | h0 => intro _; simp [cleanStep, GoObj.lookup]
  | h1 k0 v0 rest ih =>
    intro h
    simp only [GoObj.lookup] at h
    by_cases hk : k0 = k
    · rw [if_pos hk] at h
      cases h
    · rw [if_neg hk] at h
      by_cases hz : isOptZero b k0 v0 = true
      · simp [cleanStep, hz, ih h]
      · simp [cleanStep, hz, GoObj.lookup, hk, ih h]

/-- Lookup characterization of one cleanup level: an entry found in the
input map is deleted exactly when its attribute schema is Optional and
its value is zero; otherwise it is retained with the nested-block
transformation applied. -/
theorem cleanStep_lookup (r : GoObj → Block → GoObj) (b : Block) (k : Str) :
    ∀ (data : GoObj), data.nodupKeys = true →
      (cleanStep r data b).lookup k =
        (data.lookup k).bind
          (fun v => if isOptZero b k v then none else some (cleanValStep r b k v)) := by
  intro data
  induction data using goObjInd with
  | h0 => intro _; simp [cleanStep, GoObj.lookup]
  | h1 k0 v0 rest ih =>
    intro hnd
    simp only [GoObj.nodupKeys, Bool.and_eq_true, Bool.not_eq_true'] at hnd
    by_cases hk : k0 = k
    · subst hk
      by_cases hz : isOptZero b k0 v0 = true
      · have hrest : rest.lookup k0 = none := lookup_eq_none_of_memKey_false hnd.1
        simp [cleanStep, hz, GoObj.lookup, cleanStep_lookup_none hrest]
      · simp [cleanStep, hz, GoObj.lookup]
    · by_cases hz : isOptZero b k0 v0 = true
      · simp [cleanStep, hz, GoObj.lookup, hk, ih hnd.2]
      · simp [cleanStep, hz, GoObj.lookup, hk, ih hnd.2]

/-- Lookup characterization of the full recursive cleanup. -/
theorem clean_lookup (data : GoObj) (b : Block) (k : Str) (hnd : data.nodupKeys = true) :
    (cleanOptionalEmptyAttributes data b).lookup k =
      (data.lookup k).bind
        (fun v => if isOptZero b k v then none else some (cleanBlockVal b k v)) := by
  have hpos := b.depth_pos
  have hd : b.depth = b.bts.depth + 1 := (b.bts_depth_succ).symm
  unfold cleanOptionalEmptyAttributes
  rw [hd]
  simp only [cleanFuel]
  rw [cleanStep_lookup _ b k data hnd]
  cases hget : data.lookup k with
  | none => rfl
  | some v =>
    simp only [Option.some_bind]
    by_cases hz : isOptZero b k v = true
    · simp [hz]
    · have hval : cleanValStep (cleanFuel b.bts.depth) b k v = cleanBlockVal b k v := by
        unfold cleanBlockVal
        refine cleanValStep_congr (fun sub hbt m => ?_) v
        have hsd : sub.depth ≤ b.bts.depth := btLookup_depth hbt
        unfold cleanOptionalEmptyAttributes
        exact cleanFuel_irrel b.bts.depth sub hsd b.bts.depth m hsd
      simp [hz, hval]

/-- The full recursive cleanup never introduces a key. -/
theorem clean_lookup_none {data : GoObj} {b : Block} {k : Str}
    (h : data.lookup k = none) :
    (cleanOptionalEmptyAttributes data b).lookup k = none := by
  have hd : b.depth = b.bts.depth + 1 := (b.bts_depth_succ).symm
  unfold cleanOptionalEmptyAttributes
  rw [hd]
  simp only [cleanFuel]
  exact cleanStep_lookup_none h

/-! ### Claim C3 -/

/-- C3 counterexample: `tags` is schema-optional and its value is an empty
sequence, yet `cleanOptionalEmptyAttributes` retains it. `reflect.DeepEqual`
compares the non-nil empty slice against the nil zero value of `[]interface{}`
and reports them different, so the deletion branch is not taken. This refutes
the claim that an optional attribute with an empty-sequence value is deleted. -/
theorem C3_counterexample :
    aLookup c3Schema.attrs (str "tags") = some ⟨true, false⟩ ∧
    (cleanOptionalEmptyAttributes c3Data c3Schema).lookup (str "tags")
      = some (GoValue.varr .nil) := by
  decide

/-- C3 (amended): for every resource item with well-formed (duplicate-free)
keys, pruning deletes exactly those schema-optional attributes whose value is
the zero value of its Go representation — nil interface, empty string, false,
or 0; an empty but non-nil sequence or mapping is not a zero value and is
retained. Every retained attribute keeps its value, with the cleanup applied
recursively through block-type children (`cleanBlockVal`), so the rule holds
at every nesting level. -/
theorem C3_prune_exactly_optional_zero (data : GoObj) (b : Block) (k : Str)
    (hnd : data.nodupKeys = true) :
    (cleanOptionalEmptyAttributes data b).lookup k =
      (data.lookup k).bind
        (fun v => if isOptZero b k v then none else some (cleanBlockVal b k v)) :=
  clean_lookup data b k hnd

/-- C3 witness: the theorem applied to the bag `{"description": ""}` with
`description` optional; the attribute is pruned away. -/
theorem C3_prune_witness :
    c3DataB.nodupKeys = true ∧
    (cleanOptionalEmptyAttributes c3DataB c3Schema).lookup (str "description")
      = (c3DataB.lookup (str "description")).bind
          (fun v => if isOptZero c3Schema (str "description") v then none
                    else some (cleanBlockVal c3Schema (str "description") v)) :=
  ⟨by decide, C3_prune_exactly_optional_zero c3DataB c3Schema (str "description") (by decide)⟩

/-! ### Claim C5 -/

/-- C5: when the resource schema declares a Computed top-level `project`
attribute, `CleanUpOptionalEmptyAttributes` deletes the top-level `project`
key unconditionally (whatever its value), while inside nested blocks the
recursive cleanup removes a `project` attribute only under the ordinary
optional-and-zero rule — a nested `project` that is not optional-and-zero
is always retained, regardless of the Computed flag anywhere. -/
theorem C5_project_top_level_deletion (item : GoObj) (sch : Block) (a : AttrSchema)
    (hproj : aLookup sch.attrs (str "project") = some a) (hcomp : a.computed = true) :
    (CleanUpOptionalEmptyAttributes item sch).lookup (str "project") = none ∧
    (∀ (m : GoObj) (sub : Block) (v : GoValue), m.nodupKeys = true →
      m.lookup (str "project") = some v → isOptZero sub (str "project") v = false →
      (cleanOptionalEmptyAttributes m sub).lookup (str "project")
        = some (cleanBlockVal sub (str "project") v)) := by
  constructor
  · unfold CleanUpOptionalEmptyAttributes
    simp only [hproj, hcomp, if_true]
    exact clean_lookup_none (eraseKey_lookup_self item (str "project"))
  · intro m sub v hnd hl hz
    rw [clean_lookup m sub _ hnd, hl]
    simp [hz]

/-- C5 witness: the theorem applied to a concrete resource whose top-level
`project` is set and whose nested `settings` block carries its own
non-optional `project`. -/
theorem C5_project_witness :
    aLookup c5Sch.attrs (str "project") = some ⟨false, true⟩ ∧
    (CleanUpOptionalEmptyAttributes c5Item c5Sch).lookup (str "project") = none ∧
    (cleanOptionalEmptyAttributes c5Nested c5Sub).lookup (str "project")
      = some (cleanBlockVal c5Sub (str "project") (GoValue.vstr (str "q"))) := by
  refine ⟨by decide, ?_, ?_⟩
  · exact (C5_project_top_level_deletion c5Item c5Sch ⟨false, true⟩ (by decide) rfl).1
  · exact (C5_project_top_level_deletion c5Item c5Sch ⟨false, true⟩ (by decide) rfl).2
      c5Nested c5Sub (GoValue.vstr (str "q")) (by decide) (by decide) (by decide)

/-! ### Claim C8 -/

/-- C8 counterexample: `description` is empty-valued and matches an
AllowEmptyValues pattern, so the decode stage keeps it (first conjunct); but
`ConvertTFstate` then runs `CleanUpOptionalEmptyAttributes`, which consults
only the schema — `description` is schema-optional and zero-valued, so it is
deleted after all (second conjunct). This refutes the claim that an attribute
matching AllowEmptyValues remains in the resource item after `ConvertTFstate`
even when schema-optional and zero-valued. -/
theorem C8_counterexample :
    (flatmapParseModel c8Attrs [] c8Allow).lookup (str "description")
      = some (GoValue.vstr []) ∧
    (ConvertTFstate c8Attrs [] c8Allow c8Sch).lookup (str "description") = none := by
  decide

/-- C8 (amended): an attribute whose key matches an AllowEmptyValues pattern
is exempt from the decode-stage emptiness filtering, but the subsequent
`CleanUpOptionalEmptyAttributes` pass inside `ConvertTFstate` still deletes
schema-optional zero-valued attributes regardless of AllowEmptyValues. An
attribute kept by the decode stage therefore remains after `ConvertTFstate`
precisely when it is not schema-optional-with-zero-value (and is not a
Computed top-level `project`). -/
theorem C8_allow_empty_survival (attributes : List (Str × Str))
    (ignoreKeys allowEmpty : List Str) (sch : Block) (k : Str) (v : GoValue)
    (hnd : (flatmapParseModel attributes ignoreKeys allowEmpty).nodupKeys = true)
    (hl : (flatmapParseModel attributes ignoreKeys allowEmpty).lookup k = some v)
    (hz : isOptZero sch k v = false)
    (hp : k = str "project" → projComputed sch = false) :
    (ConvertTFstate attributes ignoreKeys allowEmpty sch).lookup k
      = some (cleanBlockVal sch k v) := by
  unfold ConvertTFstate CleanUpOptionalEmptyAttributes
  cases hpr : aLookup sch.attrs (str "project") with
  | none =>
    simp only [hpr]
    rw [clean_lookup _ sch k hnd, hl]
    simp [hz]
  | some a =>
    by_cases hc : a.computed = true
    · have hkp : k ≠ str "project" := by
        intro hk
        have hfalse := hp hk
        unfold projComputed at hfalse
        rw [hpr] at hfalse
        simp [hc] at hfalse
      simp only [hpr, hc, if_true]
      rw [clean_lookup _ sch k (eraseKey_nodup hnd), eraseKey_lookup_ne hkp, hl]
      simp [hz]
    · simp only [hpr, if_neg hc]
      rw [clean_lookup _ sch k hnd, hl]
      simp [hz]

/-- C8 witness: the theorem applied to the empty-valued `zone` attribute,
kept by the decode stage because it matches an AllowEmptyValues pattern and
retained by the cleanup because its schema does not mark it Optional. -/
theorem C8_allow_empty_witness :
    (flatmapParseModel c8Attrs [] c8Allow).nodupKeys = true ∧
    (flatmapParseModel c8Attrs [] c8Allow).lookup (str "zone")
      = some (GoValue.vstr []) ∧
    isOptZero c8Sch (str "zone") (GoValue.vstr []) = false ∧
    (ConvertTFstate c8Attrs [] c8Allow c8Sch).lookup (str "zone")
      = some (cleanBlockVal c8Sch (str "zone") (GoValue.vstr [])) :=
  ⟨by decide, by decide, by decide,
    C8_allow_empty_survival c8Attrs [] c8Allow c8Sch (str "zone") (GoValue.vstr [])
      (by decide) (by decide) (by decide) (by decide)⟩

/-! ### Helper lemmas: rewriters and TfSanitize -/

/-- The terraform12 loop emits exactly one line per input line: its
output always has the length of its input (no truncation, no failure). -/
theorem t12go_length (maps : Str → Bool) :
    ∀ (ls : List Str) (st : List Str), (t12go maps st ls).length = ls.length := by
  intro ls
  induction ls with
  | nil => intro st; rfl
  | cons l rest ih => intro st; simp [t12go, ih]

/-- When no line matches the closing regexp, the inner scan fails (the Go
loop runs past the end of the slice and panics). -/
theorem t13scan_none {rest : List Str}
    (h : ∀ l2 ∈ rest, matchEndBrace l2 = false) : t13scan rest = none := by
  induction rest with
  | nil => rfl
  | cons l0 r ih =>
    have h0 : matchEndBrace l0 = false := h l0 (by simp)
    simp only [t13scan, h0]
    rw [ih (fun l2 h2 => h l2 (by simp [h2]))]
    rfl

/-- Core of the C2 analysis: when some line matches the
`required_providers` regexp, no earlier line does, and no later line
matches the closing regexp, `t13go` produces no output (the Go code
panics instead of returning). -/
theorem t13go_none_of_unclosed :
    ∀ (lines : List Str) (i : Nat) (l : Str),
      lines[i]? = some l → matchReqProv l = true →
      (∀ l2 ∈ lines.take i, matchReqProv l2 = false) →
      (∀ l2 ∈ lines.drop (i + 1), matchEndBrace l2 = false) →
      t13go lines = none := by
  intro lines
  induction lines with
  | nil =>
    intro i l hi
    simp at hi
  | cons l0 rest ih =>
    intro i l hi hm hfirst hnoclose
    cases i with
    | zero =>
      simp only [List.getElem?_cons_zero, Option.some.injEq] at hi
      subst hi
      have hdrop : ∀ l2 ∈ rest, matchEndBrace l2 = false := by
        intro l2 h2
        exact hnoclose l2 (by simpa using h2)
      simp only [t13go, hm, if_true]
      cases hq : (splitOnC ' ' (trimSpace l0))[1]? with
      | none => rfl
      | some p1 =>
        rw [t13scan_none hdrop]
    | succ i =>
      have h0 : matchReqProv l0 = false := by
        refine hfirst l0 ?_
        simp [List.take_succ_cons]
      simp only [t13go, h0, Bool.false_eq_true, if_false]
      have hrest : t13go rest = none := by
        refine ih i l (by simpa using hi) hm ?_ ?_
        · intro l2 h2
          refine hfirst l2 ?_
          simp [List.take_succ_cons, h2]
        · intro l2 h2
          exact hnoclose l2 (by simpa using h2)
      rw [hrest]

/-- A list is a prefix of itself followed by anything. -/
theorem hasPfx_append (p s : Str) : hasPfx p (p ++ s) = true := by
  induction p with
  | nil => rfl
  | cons c r ih => simp [hasPfx, ih]

/-- Hexadecimal digits are in the safe character set. -/
theorem hexDigitU_safe (n : Nat) : isSafeChar (hexDigitU n) = true := by
  unfold hexDigitU
  rcases n with _|_|_|_|_|_|_|_|_|_|_|_|_|_|_|n <;> rfl

/-- The `%04X` rendering uses only safe characters. -/
theorem hex04X_safe (bytes : List Nat) : (hex04X bytes).all isSafeChar = true := by
  unfold hex04X
  rw [List.all_append, Bool.and_eq_true]
  constructor
  · have : ∀ n, (List.replicate n '0').all isSafeChar = true := by
      intro n
      induction n with
      | zero => rfl
      | succ n ih =>
        simp only [List.replicate_succ, List.all_cons, Bool.and_eq_true]
        exact ⟨by decide, ih⟩
    exact this _
  · induction bytes with
    | nil => rfl
    | cons b r ih =>
      simp only [concatMap, List.all_append, Bool.and_eq_true]
      exact ⟨by simp [hexDigitU_safe], ih⟩

/-- The rune escape uses only safe characters. -/
theorem escapeRune_safe (c : Char) : (escapeRune c).all isSafeChar = true := by
  unfold escapeRune
  simp [List.all_append, hex04X_safe] <;> decide

/-! ### Claim C2 -/

/-- C2 counterexample: `c2Input` contains a `required_providers "aws" \x7b`
line and no subsequent closing-brace line, so the claim asserts that both
rewriters raise a RewriteError there. In fact `terraform12Adjustments`
has no error channel at all and returns a normal (here unchanged) output,
and `terraform13Adjustments` does not produce an error value either: its
scan walks past the end of the line slice and the process panics with an
index-out-of-range error (modelled as `none`). -/
theorem C2_counterexample :
    terraform12Adjustments (fun _ => false) c2Input = c2Input ∧
    terraform13Adjustments c2Input = none := by
  decide

/-- C2 (amended): on a pretty-printed input whose `required_providers`
opener is never closed, `terraform13Adjustments` aborts by a runtime
panic — modelled as producing no output — rather than returning a
RewriteError value; its scan is bounded by the number of lines, so it
never loops unboundedly (all model functions are total). The brace
tracking of `terraform12Adjustments` cannot raise any error: the pass
always completes normally and emits exactly one line per input line,
so it never truncates the output. -/
theorem C2_unclosed_block_abort (lines : List Str) (i : Nat) (l : Str)
    (hi : lines[i]? = some l) (hm : matchReqProv l = true)
    (hfirst : ∀ l2 ∈ lines.take i, matchReqProv l2 = false)
    (hnoclose : ∀ l2 ∈ lines.drop (i + 1), matchEndBrace l2 = false) :
    t13go lines = none ∧
    ∀ (maps : Str → Bool) (st : List Str) (ls : List Str),
      (t12go maps st ls).length = ls.length :=
  ⟨t13go_none_of_unclosed lines i l hi hm hfirst hnoclose,
   fun maps st ls => t12go_length maps ls st⟩

/-- C2 witness: the theorem applied to the concrete unclosed input. -/
theorem C2_unclosed_witness :
    t13go c2Lines = none ∧
    (t12go (fun _ => false) [] c2Lines).length = c2Lines.length := by
  refine ⟨(C2_unclosed_block_abort c2Lines 1 (str "\trequired_providers \"aws\" \x7b")
    (by decide) (by decide) (by decide) (by decide)).1,
    (C2_unclosed_block_abort c2Lines 1 (str "\trequired_providers \"aws\" \x7b")
    (by decide) (by decide) (by decide) (by decide)).2 (fun _ => false) [] c2Lines⟩

/-! ### Claim C10 -/

/-- C10: every sanitized name starts with the `tfer--` prefix, and every
character of it lies in the safe set `[0-9A-Za-z_-]`: kept characters are
safe by the test, and each unsafe rune is replaced by a hex escape
(`-XXXX-`, six or eight hex digits for multi-byte runes) built from safe
characters only. -/
theorem C10_tfsanitize_safe_name (name : Str) :
    hasPfx (str "tfer--") (TfSanitize name) = true ∧
    (TfSanitize name).all isSafeChar = true := by
  constructor
  · unfold TfSanitize
    exact hasPfx_append _ _
  · unfold TfSanitize
    rw [List.all_append, Bool.and_eq_true]
    refine ⟨by decide, ?_⟩
    induction name with
    | nil => rfl
    | cons c rest ih =>
      simp only [concatMap, List.all_append, Bool.and_eq_true]
      refine ⟨?_, ih⟩
      by_cases hc : isSafeChar c = true
      · simp [hc]
      · rw [if_neg hc]
        exact escapeRune_safe c

/-! ### Claim C7 -/

/-- C7: for every literal token whose raw text begins with a quoted
heredoc marker, once the surrounding quotes are stripped and the newline
artifacts unescaped, if the body between the first (marker) and last
(terminator) lines parses as JSON, the canonicalizer replaces that body
by the JSON re-serialized at 2-space indentation, preserving the original
opening and closing marker lines around it (and marks the token as a
heredoc). -/
theorem C7_heredoc_json_roundtrip (t : Token) (v : GoValue)
    (hpre : hasPfx (str "\"<<") t.text = true)
    (hparse : parseJsonGo (heredocJsonTest t.text) = some v) :
    handleHeredoc t =
      { text := joinC '\n'
          ((heredocLines t.text).headD [] ::
            (splitOnC '\n' (marshalV 0 v) ++ [(heredocLines t.text).getLastD []])),
        ttype := 10 } := by
  unfold handleHeredoc
  rw [if_pos hpre, hparse]

/-- C7 witness: the spec's round-trip example - raw text
quote, marker EOF, escaped newline, a one-entry JSON object, escaped
newline, EOF, quote - renders as the marker line, the pretty-printed
JSON body, and the terminator line. -/
theorem C7_heredoc_witness :
    hasPfx (str "\"<<") c7Tok.text = true ∧
    parseJsonGo (heredocJsonTest c7Tok.text)
      = some (GoValue.vobj (.cons (str "a") (.vnum 1) .nil)) ∧
    handleHeredoc c7Tok
      = { text := str "<<EOF\n\x7b\n  \"a\": 1\n\x7d\nEOF", ttype := 10 } := by
  refine ⟨by decide, by decide, ?_⟩
  rw [C7_heredoc_json_roundtrip c7Tok (GoValue.vobj (.cons (str "a") (.vnum 1) .nil))
    (by decide) (by decide)]
  decide

/-! ### Claim C4 -/

/-- C4: when the sanitizer visits an object list whose current path
addresses a resource (three-segment resource/type/name prefix) and the
hint table registered for that exact type and name contains a hint that
extends the container's logical path (dotted labels, numeric indices
stripped) by exactly one segment `k`, then the visited children are
partitioned: the items whose key equals `k` come first, kept in their
original relative order (a filter of the visited sequence), followed by
the remaining siblings sorted lexicographically by their rendered text. -/
theorem C4_ordering_hint_partition (ctx : SanCtx) (items : HItems)
    (T N : Str) (restPath : List Str) (hs : List Str) (k : Str)
    (hpath : ctx.path = str "resource" :: T :: N :: restPath)
    (hsort : ctx.sortFlag = true)
    (hhints : lookup2 ctx.hints T N = some hs)
    (hfind : findUnorderedKey hs (buildLogicalPath ctx.path) = some k) :
    visitNode ctx (.objectList items) =
      .objectList (HItems.ofL
        (((visitItems ctx items).toL.filter (fun it => itemKey it == k)) ++
          sortItemsByRender
            ((visitItems ctx items).toL.filter (fun it => !(itemKey it == k))))) := by
  have hfind2 := hfind
  rw [hpath] at hfind2
  have huo : unorderedKeyOf ctx = some k := by
    unfold unorderedKeyOf
    rw [hpath]
    simp [hhints, hfind2]
  simp only [visitNode]
  unfold sortPhase
  rw [hsort, huo]
  simp [List.partition_eq_filter_filter, Function.comp_def]

/-- C4 witness: inside the `build` container of resource `t.n` with hint
`build.step`, the two `step` items keep their input order (`z-last`
before `a-first`) and come first, while the other siblings are sorted by
rendered text (`queue` before `timeout`). -/
theorem C4_ordering_witness :
    c4Ctx.path = str "resource" :: c4T :: c4N :: [str "build"] ∧
    lookup2 c4Ctx.hints c4T c4N = some [str "build.step"] ∧
    findUnorderedKey [str "build.step"] (buildLogicalPath c4Ctx.path)
      = some (str "step") ∧
    visitNode c4Ctx (.objectList c4Items) =
      .objectList (.cons (mkLit "step" "\"z-last\"")
        (.cons (mkLit "step" "\"a-first\"")
          (.cons (mkLit "queue" "\"q\"")
            (.cons (mkLit "timeout" "\"60s\"") .nil)))) := by
  refine ⟨by decide, by decide, by decide, ?_⟩
  rw [C4_ordering_hint_partition c4Ctx c4Items c4T c4N [str "build"] [str "build.step"]
    (str "step") (by decide) (by decide) (by decide) (by decide)]
  decide

/-! ### Helper lemmas: assembly of the document -/

/-- Set insertions commute. -/
theorem setInsert_comm (f : Str → Bool) (a b : Str) :
    setInsert (setInsert f a) b = setInsert (setInsert f b) a := by
  funext s
  unfold setInsert
  by_cases h1 : s = b <;> by_cases h2 : s = a <;> simp [h1, h2]

/-- Map-shape registrations commute, whatever the two attribute keys. -/
theorem markMapKey_comm (f : Str → Bool) (kv1 kv2 : Str × Str) :
    markMapKey (markMapKey f kv1) kv2 = markMapKey (markMapKey f kv2) kv1 := by
  unfold markMapKey
  by_cases h1 : hasSfx (str ".%") kv1.1 = true <;>
    by_cases h2 : hasSfx (str ".%") kv2.1 = true <;>
      simp [h1, h2, setInsert_comm]

/-- Registering the attribute keys of a Go map is independent of the
iteration order. -/
theorem addAttrs_perm {l1 l2 : List (Str × Str)} (h : l1.Perm l2) (f : Str → Bool) :
    addAttrs f l1 = addAttrs f l2 :=
  h.foldl_eq' (fun x _ y _ z => markMapKey_comm z x y) f

/-- One loop iteration treats two presentations of the same Go resource
value identically. -/
theorem assembleStep_equiv {r1 r2 : ResourceM} (h : ResourceMEquiv r1 r2)
    (st : AsmState) : assembleStep st r1 = assembleStep st r2 := by
  obtain ⟨ht, hn, hi, hp, hperm⟩ := h
  simp only [assembleStep, ht, hn, hi, hp, addAttrs_perm hperm st.maps]

/-- The whole loop treats two presentations of the same resource list
identically. -/
theorem foldl_assembleStep_equiv {rs1 rs2 : List ResourceM}
    (h : List.Forall₂ ResourceMEquiv rs1 rs2) :
    ∀ st, rs1.foldl assembleStep st = rs2.foldl assembleStep st := by
  induction h with
  | nil => intro st; rfl
  | cons h1 _ ih =>
    intro st
    simp only [List.foldl_cons]
    rw [assembleStep_equiv h1]
    exact ih _

/-- Assembly is a function of the denoted resource values. -/
theorem assemble_equiv {rs1 rs2 : List ResourceM}
    (h : List.Forall₂ ResourceMEquiv rs1 rs2) : assemble rs1 = assemble rs2 :=
  foldl_assembleStep_equiv h asmInit

/-! ### Claim C1 -/

/-- C1: rendering is deterministic: two calls to `HclPrintResource` (and
through it `Print`/`hclPrint`) on identical inputs — the same resource
list, provider data, format, and sort flag — return byte-identical
output and the same error result. Identical Go inputs are captured up to
the one nondeterminism Go map values admit: each resource's `Attributes`
map may be handed to the loop in any iteration order, so the two calls
receive pointwise-equal resources whose attribute lists are permutations
of each other; every map consulted downstream is either serialized with
sorted keys or read only through membership, so the bytes agree. In
particular, re-rendering the same assembled document twice yields
byte-identical output. -/
theorem C1_render_deterministic (rs1 rs2 : List ResourceM) (providerData : GoObj)
    (output : Str) (sortFlag : Bool)
    (h : List.Forall₂ ResourceMEquiv rs1 rs2) :
    HclPrintResource rs1 providerData output sortFlag
      = HclPrintResource rs2 providerData output sortFlag := by
  unfold HclPrintResource
  rw [assemble_equiv h]

/-- C1 witness: the theorem applied to one concrete resource whose
attribute map is presented in two different iteration orders. -/
theorem C1_render_witness :
    HclPrintResource [c1ResA] .nil (str "hcl") true
      = HclPrintResource [c1ResB] .nil (str "hcl") true :=
  C1_render_deterministic [c1ResA] [c1ResB] .nil (str "hcl") true
    (List.Forall₂.cons ⟨rfl, rfl, rfl, rfl, List.Perm.swap _ _ _⟩ List.Forall₂.nil)

/-- Lookup in a table extended at the end: the old entries win. -/
theorem lookupA_append (r : List (Str × α)) (k : Str) (a : α) (key : Str) :
    lookupA (r ++ [(k, a)]) key =
      match lookupA r key with
      | some x => some x
      | none => if k = key then some a else none := by
  induction r with
  | nil => simp [lookupA]
  | cons p rest ih =>
    obtain ⟨k0, a0⟩ := p
    by_cases h : k0 = key
    · simp [lookupA, h]
    · simp only [List.cons_append, lookupA, if_neg h]
      exact ih

/-- Lookup after inserting a fresh (type, name) entry. -/
theorem byTypeInsert_lookup {bt : ByType} {t0 n0 : Str} {it : GoObj}
    (hnone : byTypeLookup bt t0 n0 = none) (t n : Str) :
    byTypeLookup (byTypeInsert bt t0 n0 it) t n
      = if t0 = t ∧ n0 = n then some it else byTypeLookup bt t n := by
  induction bt with
  | nil =>
    by_cases ht : t0 = t
    · subst ht
      by_cases hn : n0 = n
      · subst hn
        simp [byTypeInsert, byTypeLookup, lookupA]
      · simp [byTypeInsert, byTypeLookup, lookupA, hn]
    · simp [byTypeInsert, byTypeLookup, lookupA, ht]
  | cons p rest ih =>
    obtain ⟨t1, r⟩ := p
    by_cases h1 : t1 = t0
    · subst h1
      have hr : lookupA r n0 = none := by
        simpa [byTypeLookup, lookupA] using hnone
      by_cases ht : t1 = t
      · subst ht
        by_cases hn : n0 = n
        · subst hn
          simp [byTypeInsert, byTypeLookup, lookupA, lookupA_append, hr]
        · cases hx : lookupA r n <;>
            simp [byTypeInsert, byTypeLookup, lookupA, lookupA_append, hn, hx]
      · have hc : ¬ (t1 = t ∧ n0 = n) := fun hh => ht hh.1
        simp [byTypeInsert, byTypeLookup, lookupA, ht, hc]
    · have hrest : byTypeLookup rest t0 n0 = none := by
        have h1s : ¬ t1 = t0 := h1
        simpa [byTypeLookup, lookupA, h1s] using hnone
      have hins := ih hrest
      by_cases ht : t1 = t
      · subst ht
        have hc : ¬ (t0 = t1 ∧ n0 = n) := fun hh => h1 hh.1.symm
        simp [byTypeInsert, byTypeLookup, lookupA, h1, hc]
      · simp only [byTypeInsert, if_neg h1, byTypeLookup, lookupA, if_neg ht]
        simpa [byTypeLookup] using hins

/-- The invariant is empty at the start. -/
theorem seenInv_init : SeenInv ([] : ByType) [] := by
  intro t n
  rfl

/-- Extending a fresh entry extends the seen set. -/
theorem seenInv_step {bt : ByType} {seen : List (Str × Str)} {r : ResourceM}
    (hinv : SeenInv bt seen) (hbb : byTypeLookup bt r.rtype r.name = none) :
    SeenInv (byTypeInsert bt r.rtype r.name r.item) ((r.rtype, r.name) :: seen) := by
  intro t n
  rw [byTypeInsert_lookup hbb t n]
  by_cases hc : r.rtype = t ∧ r.name = n
  · obtain ⟨h1, h2⟩ := hc
    subst h1; subst h2
    simp [List.contains_cons]
  · rw [if_neg hc, hinv t n]
    simp only [List.contains_cons]
    have hbeq : ((t, n) == (r.rtype, r.name)) = false := by
      rw [beq_eq_false_iff_ne]
      intro hc2
      exact hc ⟨(congrArg Prod.fst hc2).symm, (congrArg Prod.snd hc2).symm⟩
    rw [hbeq]
    simp

/-- The warning-free core of one loop iteration. -/
theorem asmCore_step (st : AsmState) (r : ResourceM) :
    AsmCore (assembleStep st r) = coreStep (AsmCore st) r := by
  unfold assembleStep coreStep AsmCore
  cases hbb : byTypeLookup st.byType r.rtype r.name <;> simp [hbb]

/-- The warning-free core of the whole loop. -/
theorem asmCore_foldl : ∀ (rs : List ResourceM) (st : AsmState),
    AsmCore (rs.foldl assembleStep st) = rs.foldl coreStep (AsmCore st) := by
  intro rs
  induction rs with
  | nil => intro st; rfl
  | cons r rest ih =>
    intro st
    simp only [List.foldl_cons]
    rw [ih, asmCore_step]

/-- Duplicates do not change the core: folding over a resource list and
over its first-occurrence deduplication produce the same grouped table,
map-shape set, and hint table. -/
theorem coreFold_dedup : ∀ (rs : List ResourceM) (c : ByType × (Str → Bool) × Hints)
    (seen : List (Str × Str)), SeenInv c.1 seen →
    rs.foldl coreStep c = (dedupSeen seen rs).foldl coreStep c := by
  intro rs
  induction rs with
  | nil => intro c seen hinv; rfl
  | cons r rest ih =>
    intro c seen hinv
    cases hbb : byTypeLookup c.1 r.rtype r.name with
    | some x =>
      have hc : seen.contains (r.rtype, r.name) = true := by
        rw [← hinv]
        rw [hbb]
        rfl
      have hstep : coreStep c r = c := by
        unfold coreStep
        rw [hbb]
      simp only [List.foldl_cons, hstep, dedupSeen, hc, if_true]
      exact ih c seen hinv
    | none =>
      have hc : seen.contains (r.rtype, r.name) = false := by
        rw [← hinv]
        rw [hbb]
        rfl
      have hstep : coreStep c r =
          (byTypeInsert c.1 r.rtype r.name r.item,
           addAttrs c.2.1 r.attributes,
           if r.preserveOrder.isEmpty then c.2.2
           else hintsInsert c.2.2 r.rtype r.name r.preserveOrder) := by
        unfold coreStep
        rw [hbb]
      simp only [List.foldl_cons, dedupSeen, hc, Bool.false_eq_true, if_false]
      refine ih _ _ ?_
      rw [hstep]
      exact seenInv_step hinv hbb

/-- A deduplicated list is no longer than the original. -/
theorem dedupSeen_length_le : ∀ (rs : List ResourceM) (seen : List (Str × Str)),
    (dedupSeen seen rs).length ≤ rs.length := by
  intro rs
  induction rs with
  | nil => intro seen; simp [dedupSeen]
  | cons r rest ih =>
    intro seen
    by_cases hc : seen.contains (r.rtype, r.name) = true
    · simp only [dedupSeen, hc, if_true]
      have := ih seen
      simp only [List.length_cons]
      omega
    · have hc2 : seen.contains (r.rtype, r.name) = false := by
        cases h2 : seen.contains (r.rtype, r.name)
        · rfl
        · exact absurd h2 hc
      simp only [dedupSeen, hc2, Bool.false_eq_true, if_false, List.length_cons]
      have := ih ((r.rtype, r.name) :: seen)
      omega

/-- Exactly one warning is appended per duplicate: the final warning
count is the number of dropped occurrences. -/
theorem warnings_foldl : ∀ (rs : List ResourceM) (st : AsmState)
    (seen : List (Str × Str)), SeenInv st.byType seen →
    (rs.foldl assembleStep st).warnings.length
      = st.warnings.length + (rs.length - (dedupSeen seen rs).length) := by
  intro rs
  induction rs with
  | nil => intro st seen hinv; simp [dedupSeen]
  | cons r rest ih =>
    intro st seen hinv
    cases hbb : byTypeLookup st.byType r.rtype r.name with
    | some x =>
      have hc : seen.contains (r.rtype, r.name) = true := by
        rw [← hinv, hbb]; rfl
      have hstep : assembleStep st r = { st with warnings := st.warnings ++ [(r.rtype, r.name)] } := by
        unfold assembleStep
        rw [hbb]
      have hdl := dedupSeen_length_le rest seen
      simp only [List.foldl_cons, hstep, dedupSeen, hc, if_true, List.length_cons]
      rw [ih _ seen (by intro t n; exact hinv t n)]
      simp only [List.length_append, List.length_cons, List.length_nil]
      omega
    | none =>
      have hc : seen.contains (r.rtype, r.name) = false := by
        rw [← hinv, hbb]; rfl
      have hstep : assembleStep st r =
          { byType := byTypeInsert st.byType r.rtype r.name r.item,
            maps := addAttrs st.maps r.attributes,
            hints := if r.preserveOrder.isEmpty then st.hints
                     else hintsInsert st.hints r.rtype r.name r.preserveOrder,
            warnings := st.warnings } := by
        unfold assembleStep
        rw [hbb]
      have hdl := dedupSeen_length_le rest ((r.rtype, r.name) :: seen)
      simp only [List.foldl_cons, hstep, dedupSeen, hc, Bool.false_eq_true, if_false,
        List.length_cons]
      rw [ih _ ((r.rtype, r.name) :: seen) (seenInv_step hinv hbb)]
      dsimp only
      omega

/-- First occurrence wins: looking up a (type, name) in the assembled
table finds the item of the first resource with that type and name, and
later duplicates change nothing. -/
theorem byType_foldl_lookup (T N : Str) : ∀ (rs : List ResourceM) (st : AsmState),
    byTypeLookup (rs.foldl assembleStep st).byType T N =
      (match byTypeLookup st.byType T N with
       | some it => some it
       | none =>
         (rs.find? (fun r => r.rtype == T && r.name == N)).map (fun r => r.item)) := by
  intro rs
  induction rs with
  | nil =>
    intro st
    cases h : byTypeLookup st.byType T N <;> simp [h]
  | cons r rest ih =>
    intro st
    cases hbb : byTypeLookup st.byType r.rtype r.name with
    | some x =>
      have hstep : assembleStep st r
          = { st with warnings := st.warnings ++ [(r.rtype, r.name)] } := by
        unfold assembleStep
        rw [hbb]
      simp only [List.foldl_cons, hstep]
      rw [ih _]
      dsimp only
      by_cases hp : (r.rtype == T && r.name == N) = true
      · obtain ⟨h1, h2⟩ : r.rtype = T ∧ r.name = N := by
          simpa [Bool.and_eq_true, beq_iff_eq] using hp
        have hTN : byTypeLookup st.byType T N = some x := by
          rw [← h1, ← h2]; exact hbb
        rw [hTN]
      · cases hTN : byTypeLookup st.byType T N with
        | some y => rfl
        | none => simp [List.find?_cons, hp]
    | none =>
      have hstep : assembleStep st r =
          { byType := byTypeInsert st.byType r.rtype r.name r.item,
            maps := addAttrs st.maps r.attributes,
            hints := if r.preserveOrder.isEmpty then st.hints
                     else hintsInsert st.hints r.rtype r.name r.preserveOrder,
            warnings := st.warnings } := by
        unfold assembleStep
        rw [hbb]
      simp only [List.foldl_cons, hstep]
      rw [ih _]
      dsimp only
      rw [byTypeInsert_lookup hbb T N]
      by_cases hp : (r.rtype == T && r.name == N) = true
      · obtain ⟨h1, h2⟩ : r.rtype = T ∧ r.name = N := by
          simpa [Bool.and_eq_true, beq_iff_eq] using hp
        have hTN : byTypeLookup st.byType T N = none := by
          rw [← h1, ← h2]; exact hbb
        rw [if_pos ⟨h1, h2⟩, hTN]
        simp [List.find?_cons, hp]
      · have hcond : ¬ (r.rtype = T ∧ r.name = N) := by
          intro hc
          exact hp (by simp [beq_iff_eq, hc.1, hc.2])
        rw [if_neg hcond]
        cases hTN : byTypeLookup st.byType T N with
        | some y => rfl
        | none => simp [List.find?_cons, hp]

/-! ### Claim C9 -/

/-- C9: assembling resources into `resourcesByType` keeps, for every
(type, name), the first occurrence in input order (later duplicates are
discarded and modify neither the kept entry nor anything else: the whole
render equals the render of the first-occurrence-deduplicated list), and
exactly one warning is recorded per dropped duplicate. The render output
is a function of the deduplicated list alone, so it still succeeds for
the remaining resources whenever it does at all. -/
theorem C9_duplicate_first_wins (rs : List ResourceM) (T N : Str)
    (providerData : GoObj) (output : Str) (sortFlag : Bool) :
    byTypeLookup (assemble rs).byType T N
      = ((rs.find? (fun r => r.rtype == T && r.name == N)).map (fun r => r.item)) ∧
    (assemble rs).warnings.length = rs.length - (dedupKeepFirst rs).length ∧
    HclPrintResource rs providerData output sortFlag
      = HclPrintResource (dedupKeepFirst rs) providerData output sortFlag := by
  have hinv0 : SeenInv asmInit.byType [] := seenInv_init
  refine ⟨?_, ?_, ?_⟩
  · have h := byType_foldl_lookup T N rs asmInit
    rw [assemble]
    rw [h]
    rfl
  · have h := warnings_foldl rs asmInit [] hinv0
    rw [assemble, h]
    simp [asmInit, dedupKeepFirst]
  · have hcore : AsmCore (assemble rs) = AsmCore (assemble (dedupKeepFirst rs)) := by
      rw [assemble, assemble, asmCore_foldl, asmCore_foldl]
      exact coreFold_dedup rs (AsmCore asmInit) [] hinv0
    have h1 : (assemble rs).byType = (assemble (dedupKeepFirst rs)).byType :=
      congrArg Prod.fst hcore
    have h2 : (assemble rs).maps = (assemble (dedupKeepFirst rs)).maps :=
      congrArg (fun c => c.2.1) hcore
    have h3 : (assemble rs).hints = (assemble (dedupKeepFirst rs)).hints :=
      congrArg (fun c => c.2.2) hcore
    simp only [HclPrintResource]
    rw [h1, h2, h3]

/-! ### Helper lemmas: the terraform12 rewriting and the map-shape set -/

/-- Per-index characterization of the terraform12 loop: the output line
at position `i` is the step applied to the input line under the prefix
stack accumulated over the first `i` lines. -/
theorem t12go_get (maps : Str → Bool) : ∀ (lines : List Str) (st : List Str) (i : Nat),
    (t12go maps st lines)[i]?
      = (lines[i]?).map (fun l => (t12step maps (t12stack maps st (lines.take i)) l).1) := by
  intro lines
  induction lines with
  | nil => intro st i; simp [t12go]
  | cons l rest ih =>
    intro st i
    cases i with
    | zero => simp [t12go, t12stack]
    | succ i =>
      simp only [t12go, List.getElem?_cons_succ, List.take_succ_cons]
      rw [ih]
      rfl

/-- A line matching the singleton-opener regexp does not match the
closing-brace regexp: its first non-blank character is a word character,
not a closing brace. -/
theorem open_not_end {l : Str} (h : matchSingletonOpen l = true) :
    matchEndBrace l = false := by
  unfold matchSingletonOpen at h
  unfold matchEndBrace
  cases hrest : l.dropWhile isSpaceRe with
  | nil =>
    rw [hrest] at h
    exact absurd h (by decide)
  | cons c cs =>
    rw [hrest] at h
    simp only [Bool.and_eq_true] at h
    have hw : isWordChar c = true := by
      by_cases hc : isWordChar c = true
      · exact hc
      · rw [List.takeWhile_cons] at h
        obtain ⟨h1, _⟩ := h
        rw [if_neg (by simpa using hc)] at h1
        simp at h1
    have hne : ('\x7d' == c) = false := by
      cases hq : ('\x7d' == c)
      · rfl
      · have hcc : '\x7d' = c := beq_iff_eq.mp hq
        rw [← hcc] at hw
        exact absurd hw (by decide)
    have hstr : str "\x7d" = ['\x7d'] := rfl
    rw [hstr]
    simp [hasPfx, hne]

/-- Membership after a set insertion. -/
theorem setInsert_true_iff (f : Str → Bool) (a s : Str) :
    setInsert f a s = true ↔ s = a ∨ f s = true := by
  unfold setInsert
  by_cases h : s = a <;> simp [h]

/-- Membership after registering one attribute key. -/
theorem markMapKey_true_iff (f : Str → Bool) (kv : Str × Str) (s : Str) :
    markMapKey f kv s = true ↔
      (hasSfx (str ".%") kv.1 = true ∧ stripIndexes (dropSfxN kv.1 2) = s)
        ∨ f s = true := by
  unfold markMapKey
  by_cases h : hasSfx (str ".%") kv.1 = true
  · rw [if_pos h, setInsert_true_iff]
    constructor
    · rintro (he | hf)
      · exact Or.inl ⟨h, he.symm⟩
      · exact Or.inr hf
    · rintro (⟨_, he⟩ | hf)
      · exact Or.inl he.symm
      · exact Or.inr hf
  · simp [h]

/-- Membership after registering all attribute keys of one resource. -/
theorem addAttrs_true_iff : ∀ (attrs : List (Str × Str)) (f : Str → Bool) (s : Str),
    addAttrs f attrs s = true ↔
      ((∃ kv ∈ attrs, hasSfx (str ".%") kv.1 = true ∧ stripIndexes (dropSfxN kv.1 2) = s)
        ∨ f s = true) := by
  intro attrs
  induction attrs with
  | nil => intro f s; simp [addAttrs]
  | cons kv rest ih =>
    intro f s
    have hstep : addAttrs f (kv :: rest) = addAttrs (markMapKey f kv) rest := rfl
    rw [hstep, ih, markMapKey_true_iff]
    simp only [List.mem_cons]
    constructor
    · rintro (⟨kv2, hkv2, hc⟩ | (hc | hf))
      · exact Or.inl ⟨kv2, Or.inr hkv2, hc⟩
      · exact Or.inl ⟨kv, Or.inl rfl, hc⟩
      · exact Or.inr hf
    · rintro (⟨kv2, (rfl | hkv2), hc⟩ | hf)
      · exact Or.inr (Or.inl hc)
      · exact Or.inl ⟨kv2, hkv2, hc⟩
      · exact Or.inr (Or.inr hf)

/-- Membership in the assembled map-shape set: a path is registered
exactly when some non-duplicate resource carries an attribute key with
the `.%` suffix that strips to it. -/
theorem coreFold_maps : ∀ (rs : List ResourceM) (c : ByType × (Str → Bool) × Hints)
    (seen : List (Str × Str)), SeenInv c.1 seen → ∀ (s : Str),
    ((rs.foldl coreStep c).2.1 s = true ↔
      (∃ r ∈ dedupSeen seen rs, registersPath r s) ∨ c.2.1 s = true) := by
  intro rs
  induction rs with
  | nil => intro c seen hinv s; simp [dedupSeen]
  | cons r rest ih =>
    intro c seen hinv s
    cases hbb : byTypeLookup c.1 r.rtype r.name with
    | some x =>
      have hc : seen.contains (r.rtype, r.name) = true := by
        rw [← hinv, hbb]; rfl
      have hstep : coreStep c r = c := by
        unfold coreStep; rw [hbb]
      simp only [List.foldl_cons, hstep, dedupSeen, hc, if_true]
      exact ih c seen hinv s
    | none =>
      have hc : seen.contains (r.rtype, r.name) = false := by
        rw [← hinv, hbb]; rfl
      have hstep : coreStep c r =
          (byTypeInsert c.1 r.rtype r.name r.item,
           addAttrs c.2.1 r.attributes,
           if r.preserveOrder.isEmpty then c.2.2
           else hintsInsert c.2.2 r.rtype r.name r.preserveOrder) := by
        unfold coreStep; rw [hbb]
      simp only [List.foldl_cons, hstep, dedupSeen, hc, Bool.false_eq_true, if_false]
      rw [ih _ _ (seenInv_step hinv hbb) s]
      have haddr : (addAttrs c.2.1 r.attributes) s = true
          ↔ registersPath r s ∨ c.2.1 s = true :=
        addAttrs_true_iff r.attributes c.2.1 s
      rw [haddr, List.exists_mem_cons_iff]
      constructor
      · rintro (hA | hB | hC)
        · exact Or.inl (Or.inr hA)
        · exact Or.inl (Or.inl hB)
        · exact Or.inr hC
      · rintro ((hB | hA) | hC)
        · exact Or.inr (Or.inl hB)
        · exact Or.inl hA
        · exact Or.inr (Or.inr hC)

/-! ### Claim C6 -/

/-- C6: in the terraform12 pass, an output line whose input matches
`<key> = \x7b` is left unchanged when the dotted path derived from the
nesting stack of enclosing keys (extended by this line's key) is in the
map-shape set, and otherwise is rewritten to `<key> \x7b`; and the
map-shape set assembled by `HclPrintResource` contains exactly the
index-stripped prefixes of the (non-duplicate) resources' attribute keys
ending in the `.%` map-count suffix. -/
theorem C6_map_shape_rewrite (maps : Str → Bool) (st0 : List Str) (lines : List Str)
    (i : Nat) (l : Str) (rs : List ResourceM) (k : Str)
    (hi : lines[i]? = some l) (hm : matchSingletonOpen l = true) :
    (t12go maps st0 lines)[i]?
      = some (if maps (joinDot (t12stack maps st0 (lines.take i) ++ [keyOfOpenLine l]))
              then l else rewriteOpenLine l) ∧
    ((assemble rs).maps k = true ↔ ∃ r ∈ dedupKeepFirst rs, registersPath r k) := by
  constructor
  · rw [t12go_get maps lines st0 i, hi]
    have hend := open_not_end hm
    simp [t12step, hend, hm]
    by_cases hmp : maps (joinDot (t12stack maps st0 (lines.take i) ++ [keyOfOpenLine l])) = true <;>
      simp [hmp, hend, hm]
  · have h := coreFold_maps rs (AsmCore asmInit) [] seenInv_init k
    have hmaps : (assemble rs).maps = (rs.foldl coreStep (AsmCore asmInit)).2.1 := by
      rw [assemble, ← asmCore_foldl]
      rfl
    rw [hmaps, h]
    simp [AsmCore, asmInit, dedupKeepFirst]

/-- C6 witness: with the resource whose bag holds `tags.%`, the path
`tags` is registered, and the `  tags = \x7b` line of the rendered block is
left as a map literal (the `if` resolves to the unchanged line). -/
theorem C6_map_shape_witness :
    (t12go (assemble [c1ResA]).maps [] c6Lines)[1]?
      = some (if (assemble [c1ResA]).maps
                  (joinDot (t12stack (assemble [c1ResA]).maps [] (c6Lines.take 1)
                    ++ [keyOfOpenLine (str "  tags = \x7b")]))
              then str "  tags = \x7b" else rewriteOpenLine (str "  tags = \x7b")) ∧
    ((assemble [c1ResA]).maps (str "tags") = true
      ↔ ∃ r ∈ dedupKeepFirst [c1ResA], registersPath r (str "tags")) :=
  ⟨(C6_map_shape_rewrite (assemble [c1ResA]).maps [] c6Lines 1 (str "  tags = \x7b")
      [c1ResA] (str "tags") (by decide) (by decide)).1,
   (C6_map_shape_rewrite (assemble [c1ResA]).maps [] c6Lines 1 (str "  tags = \x7b")
      [c1ResA] (str "tags") (by decide) (by decide)).2⟩
